import Mathlib

/-!
myDB importer: import cache and datastore merge.

A shallow embedding of `src/myDB/Importer.cpp` / `Importer.h` and theorems about it.

Conventions of the embedding.

* `std::string` is a list of characters (`Str`).
* A `cacheRec_t` node carries four strings and two pointers. The four strings are
  `cacheRec`. The pointers are rendered by the shape of the container: a cache line
  (`importCache[i]`) is the list of the nodes linked through `diffKey`, first node first
  (`[]` is `nullptr`), and every such node carries the list of the nodes linked from it
  through `sameKey`. The code never writes or reads the `diffKey` field of a node that
  hangs on a `sameKey` list, so nothing is lost.
* `std::hash<std::string>` is implementation defined; it is a parameter `strHash`.
* `assert`, `exit` and out-of-range accesses end the run; such code returns
  `Except Halt _`.
* `numCachedRecs` (`int`) is a natural number: the staging loop flushes at
  `MAX_CACHED_RECS`, so wrap-around plays no role.
* A datastore file is its list of bytes and the stream on it has a byte position. How many
  bytes a line terminator takes on disk is decided by the platform's text mode, not by the
  source; the terminator is a parameter `eol` (`crlf` and `lf` are its two usual values).
  The `int` offsets of the seeks are computed modulo `2 ^ 32`.
* The scan loop of `storeCacheEntry` runs on a step budget of one more than the length of
  the file; `storeCacheEntry_ne_outOfFuel` shows that the budget is never used up.
-/

namespace Importer

/-- The `std::string` of the source. -/
abbrev Str := List Char

/-- Importer.h: `#define MAX_CACHED_RECS 10`. -/
def MAX_CACHED_RECS : Nat := 10

/-- Importer.h: `#define HASH_SIZE 100`. -/
def HASH_SIZE : Nat := 100

/-- Ways in which a run stops instead of returning. -/
inductive Halt where
  /-- An `assert(...)` does not hold. -/
  | assertFailed
  /-- The code calls `exit(status)`. -/
  | exit (status : Nat)
  /-- An access outside an object. -/
  | undefinedBehaviour
  /-- The step budget of a modelled loop is used up (no run of the code ends so). -/
  | outOfFuel
deriving DecidableEq, Repr

deriving instance DecidableEq for Except

/-- The data fields of `cacheRec_t` (Importer.h). -/
structure cacheRec where
  stb : Str
  title : Str
  date : Str
  rawData : Str
deriving DecidableEq, Repr

/-- A node of a `diffKey` list: its own data fields and the nodes linked from it through
`sameKey`, in link order. -/
structure cacheNode where
  own : cacheRec
  sameKey : List cacheRec
deriving DecidableEq, Repr

/-- The records reached from a `diffKey` node by following `sameKey`, the node first. -/
def cacheNode.chain (p : cacheNode) : List cacheRec := p.own :: p.sameKey

/-- The importer state that the cache operations touch: `importCache` and `numCachedRecs`. -/
structure Cache where
  importCache : Fin HASH_SIZE → List cacheNode
  numCachedRecs : Nat

/-- The state of a freshly constructed `Importer`: `importCache = { 0 }`, `numCachedRecs = 0`. -/
def emptyCache : Cache := ⟨fun _ => [], 0⟩

/-- `Importer::getHash`. -/
def getHash (strHash : Str → Nat) (str : Str) : Except Halt (Fin HASH_SIZE) :=
  if str.isEmpty then .error .assertFailed
  else .ok ⟨strHash str % HASH_SIZE, Nat.mod_lt _ (by decide)⟩

/-- `Importer::sameLogicalRec`. -/
def sameLogicalRec (rec1 rec2 : cacheRec) : Bool :=
  if rec1.stb ≠ rec2.stb ∨ rec1.title ≠ rec2.title ∨ rec1.date ≠ rec2.date then false
  else true

/-- `Importer::addToCacheSameKey`, with the walking pointer `p` at a node whose `sameKey`
successors are `next`. Returns the list from `p` on (as a node) and the new
`numCachedRecs`. -/
def addToCacheSameKey (p : cacheRec) (next : List cacheRec) (rec : cacheRec)
    (numCachedRecs : Nat) : cacheNode × Nat :=
  match next with
  | [] =>
    -- `p->sameKey == nullptr`: the loop is left, `p->sameKey = rec; numCachedRecs++`
    (⟨p, [rec]⟩, numCachedRecs + 1)
  | q :: rest =>
    if sameLogicalRec p rec then
      (⟨{ p with rawData := rec.rawData }, q :: rest⟩, numCachedRecs)
    else
      let r := addToCacheSameKey q rest rec numCachedRecs
      (⟨p, r.1.own :: r.1.sameKey⟩, r.2)

/-- `Importer::addToCacheDiffKey`, with the walking pointer `p` at a node whose `diffKey`
successors are `next`. Returns the list from `p` on and the new `numCachedRecs`. -/
def addToCacheDiffKey (p : cacheNode) (next : List cacheNode) (rec : cacheRec)
    (numCachedRecs : Nat) : List cacheNode × Nat :=
  match next with
  | [] =>
    -- `p->diffKey == nullptr`: the loop is left, `p->diffKey = rec; numCachedRecs++`
    ([p, ⟨rec, []⟩], numCachedRecs + 1)
  | q :: rest =>
    if p.own.stb = rec.stb then
      let r := addToCacheSameKey p.own p.sameKey rec numCachedRecs
      (r.1 :: q :: rest, r.2)
    else
      let r := addToCacheDiffKey q rest rec numCachedRecs
      (p :: r.1, r.2)

/-- `Importer::addToCache`. -/
def addToCache (strHash : Str → Nat) (c : Cache) (rec : cacheRec) : Except Halt Cache :=
  match getHash strHash rec.stb with
  | .error h => .error h
  | .ok index =>
    match c.importCache index with
    | [] => .ok ⟨Function.update c.importCache index [⟨rec, []⟩], c.numCachedRecs + 1⟩
    | p :: next =>
      if rec.stb = p.own.stb then
        let r := addToCacheSameKey p.own p.sameKey rec c.numCachedRecs
        .ok ⟨Function.update c.importCache index (r.1 :: next), r.2⟩
      else
        let r := addToCacheDiffKey p next rec c.numCachedRecs
        .ok ⟨Function.update c.importCache index r.1, r.2⟩

/-- `Importer::clearCache`: every cache line is freed and set to `nullptr`, the counter is
reset. -/
def clearCache (_c : Cache) : Cache := ⟨fun _ => [], 0⟩

/-- `Importer::findRecInSameKeyList`, on the records reached from `list` through `sameKey`. -/
def findRecInSameKeyList (list : List cacheRec) (rec : cacheRec) : Bool :=
  match list with
  | [] => false
  | p :: rest =>
    if p.title = rec.title ∧ p.date = rec.date then true
    else findRecInSameKeyList rest rec

/-- The `while (p->diffKey != nullptr)` loop of `Importer::findRecInCache`, with the
walking pointer `p` at a node whose `diffKey` successors are `next`. -/
def findRecInDiffKeyList (p : cacheNode) (next : List cacheNode) (rec : cacheRec) : Bool :=
  match next with
  | [] => false
  | q :: rest =>
    if p.own.stb = rec.stb then findRecInSameKeyList p.chain rec
    else findRecInDiffKeyList q rest rec

/-- `Importer::findRecInCache`. -/
def findRecInCache (strHash : Str → Nat) (c : Cache) (rec : cacheRec) : Except Halt Bool :=
  match getHash strHash rec.stb with
  | .error h => .error h
  | .ok index =>
    match c.importCache index with
    | [] => .ok false
    | p :: next =>
      if rec.stb = p.own.stb then .ok (findRecInSameKeyList p.chain rec)
      else .ok (findRecInDiffKeyList p next rec)

/-- Successive `addToCache` calls, stopping at the first one that does not return. -/
def addAllToCache (strHash : Str → Nat) (c : Cache) (recs : List cacheRec) :
    Except Halt Cache :=
  match recs with
  | [] => .ok c
  | rec :: rest =>
    match addToCache strHash c rec with
    | .error h => .error h
    | .ok c1 => addAllToCache strHash c1 rest

/-- The cache states reached from the empty cache by `addToCache` calls that return. -/
inductive Reachable (strHash : Str → Nat) : Cache → Prop where
  | empty : Reachable strHash emptyCache
  | add {c c1 : Cache} (rec : cacheRec) :
      Reachable strHash c → addToCache strHash c rec = .ok c1 → Reachable strHash c1

/-- The record `r` is held in cache line `i`: it is a `diffKey` node of the line or hangs
on the `sameKey` list of one. -/
def HeldIn (c : Cache) (i : Fin HASH_SIZE) (r : cacheRec) : Prop :=
  ∃ p ∈ c.importCache i, r ∈ p.chain

/-- The record `r` is held somewhere in the cache. -/
def Held (c : Cache) (r : cacheRec) : Prop := ∃ i, HeldIn c i r

/-- The records held in a cache line, in the order in which the flush writes them. -/
def lineRecs (line : List cacheNode) : List cacheRec := line.flatMap cacheNode.chain

/-- Two records have the same logical key (stb, title, date). -/
def SameKey (r1 r2 : cacheRec) : Prop :=
  r1.stb = r2.stb ∧ r1.title = r2.title ∧ r1.date = r2.date

instance (r1 r2 : cacheRec) : Decidable (SameKey r1 r2) := by
  unfold SameKey; infer_instance

/-! ## Parsing -/

/-- The characters up to the first `delim` and the characters after it: what
`std::getline(is, str, delim)` extracts into `str` and what it leaves unread. -/
def readUntil (delim : Char) (input : Str) : Str × Str :=
  match input with
  | [] => ([], [])
  | c :: cs =>
    if c = delim then ([], cs)
    else
      let r := readUntil delim cs
      (c :: r.1, r.2)

/-- `std::getline(is, str, delim)` on a good string stream whose unread characters are
`input`: `none` when the stream converts to false afterwards (no character could be
extracted), else the extracted string and the unread rest. A stream that has reached its
end has nothing unread, so the next call fails as well. -/
def getlineDelim (delim : Char) (input : Str) : Option (Str × Str) :=
  match input with
  | [] => none
  | c :: cs => some (readUntil delim (c :: cs))

/-- `Importer::convertToRec`. The result is the returned pointer (`none` for `nullptr`).
The allocation with `new (std::nothrow)` is taken to succeed. -/
def convertToRec (input : Str) : Except Halt (Option cacheRec) :=
  if input.isEmpty then .error .assertFailed
  else
    match getlineDelim '|' input with
    | none => .error (.exit 0)
    | some (stb, s1) =>
      match getlineDelim '|' s1 with
      | none => .error (.exit 0)
      | some (title, s2) =>
        match getlineDelim '|' s2 with
        | none => .error (.exit 0)
        | some (_trash, s3) =>
          match getlineDelim '|' s3 with
          | none => .error (.exit 0)
          | some (date, _) => .ok (some ⟨stb, title, date, input⟩)

/-- The string that `std::string(const char *)` builds from a pointer into a buffer whose
remaining characters are `s`: the characters before the first null character. -/
def cString (s : Str) : Str := s.takeWhile (fun ch => ch ≠ Char.ofNat 0)

/-- `Importer::checkCacheForRecord`. -/
def checkCacheForRecord (strHash : Str → Nat) (c : Cache) (input : Str) :
    Except Halt Bool :=
  match input with
  | [] => .error .assertFailed
  | flag :: rest =>
    if flag = '0' then .ok false
    else
      match rest with
      | [] => .error .undefinedBehaviour -- `&input[2]` lies behind the terminating null
      | _ :: raw =>
        match convertToRec (cString raw) with
        | .error h => .error h
        | .ok none => .error .assertFailed -- `assert(rec != nullptr)` in findRecInCache
        | .ok (some rec) => findRecInCache strHash c rec

/-! ## The datastore file stream -/

/-- A `std::fstream` on a datastore file: the bytes of the file, the stream position and
whether `failbit` is set. -/
structure fstream where
  data : Str
  pos : Nat
  fail : Bool
deriving DecidableEq, Repr

/-- The line that starts a run of unread bytes and the number of bytes it takes up together
with its terminator. `eol` is the byte sequence that ends a line on disk for a text-mode
stream (one byte `\n`, or the two bytes `\r\n` where the platform translates). -/
def readLine (eol : Str) (unread : Str) : Str × Nat :=
  match unread with
  | [] => ([], 0)
  | c :: cs =>
    if eol <+: c :: cs then ([], eol.length)
    else
      let r := readLine eol cs
      (c :: r.1, r.2 + 1)

/-- `std::getline(dsFileStream, dsData)`: the line read (`none` when the stream converts to
false afterwards) and the stream afterwards. -/
def fstream.getline (eol : Str) (s : fstream) : Option Str × fstream :=
  if s.fail then (none, s)
  else
    match s.data.drop s.pos with
    | [] => (none, { s with fail := true })
    | c :: cs =>
      let r := readLine eol (c :: cs)
      (some r.1, { s with pos := s.pos + r.2 })

/-- `dsFileStream.seekg(off, std::ios::cur)`: nothing on a failed stream; a target before
the start of the file sets `failbit`. -/
def fstream.seekgCur (off : Int) (s : fstream) : fstream :=
  if s.fail then s
  else if (s.pos : Int) + off < 0 then { s with fail := true }
  else { s with pos := ((s.pos : Int) + off).toNat }

/-- `dsFileStream << ch`: nothing on a failed stream; otherwise the byte at the position
is overwritten (the file grows when the position is at or behind its end). -/
def fstream.put (ch : Char) (s : fstream) : fstream :=
  if s.fail then s
  else if s.pos < s.data.length then
    { s with data := s.data.set s.pos ch, pos := s.pos + 1 }
  else
    { s with
      data := s.data ++ List.replicate (s.pos - s.data.length) (Char.ofNat 0) ++ [ch],
      pos := s.pos + 1 }

/-- Conversion of a value to `int` (32 bit, two's complement). -/
def toInt32 (z : Int) : Int := (z + 2 ^ 31) % 2 ^ 32 - 2 ^ 31

/-- `int rewind = (-1 * dsData.length()) - 2;` -/
def rewindOf (length : Nat) : Int := toInt32 (-(length : Int) - 2)

/-- `int forward = dsData.length() + 1;` -/
def forwardOf (length : Nat) : Int := toInt32 ((length : Int) + 1)

/-- The `while (getline(dsFileStream, dsData))` loop of `Importer::storeCacheEntry`, with a
step budget. -/
def scanDataStore (strHash : Str → Nat) (eol : Str) (c : Cache) (fuel : Nat) (s : fstream) :
    Except Halt fstream :=
  match fuel with
  | 0 => .error .outOfFuel
  | fuel + 1 =>
    match s.getline eol with
    | (none, s1) => .ok s1
    | (some dsData, s1) =>
      match checkCacheForRecord strHash c dsData with
      | .error h => .error h
      | .ok true =>
        scanDataStore strHash eol c fuel
          (((s1.seekgCur (rewindOf dsData.length)).put '0').seekgCur
            (forwardOf dsData.length))
      | .ok false => scanDataStore strHash eol c fuel s1

/-- What `dsFileStream << 1 << "|" << pp->rawData << "\n"` writes for one record. -/
def dsLine (eol : Str) (r : cacheRec) : Str := '1' :: '|' :: r.rawData ++ eol

/-- The bytes that the two nested loops at the end of `Importer::storeCacheEntry` write. -/
def appendedBytes (eol : Str) (list : List cacheNode) : Str :=
  (lineRecs list).flatMap (dsLine eol)

/-- The datastore: for every index the bytes of `ds<index>.txt`, `none` when the file cannot
be opened for reading and writing (a file that does not exist cannot). -/
abbrev DataStore := Fin HASH_SIZE → Option Str

/-- `Importer::storeCacheEntry`. A file that was opened for reading and writing is taken to
open for append as well, and `open` resets the stream state left by the scan (as it does
since C++11). -/
def storeCacheEntry (strHash : Str → Nat) (eol : Str) (c : Cache) (ds : DataStore)
    (list : List cacheNode) : Except Halt DataStore :=
  match list with
  | [] => .error .assertFailed
  | p :: next =>
    match getHash strHash p.own.stb with
    | .error h => .error h
    | .ok index =>
      match ds index with
      | none => .error (.exit 1)
      | some data =>
        match scanDataStore strHash eol c (data.length + 1) ⟨data, 0, false⟩ with
        | .error h => .error h
        | .ok s =>
          .ok (Function.update ds index (some (s.data ++ appendedBytes eol (p :: next))))

/-- The loop of `Importer::addCacheToDataStore` over the indices `is`. -/
def addCacheLinesToDataStore (strHash : Str → Nat) (eol : Str) (c : Cache)
    (is : List (Fin HASH_SIZE)) (ds : DataStore) : Except Halt DataStore :=
  match is with
  | [] => .ok ds
  | i :: rest =>
    match c.importCache i with
    | [] => addCacheLinesToDataStore strHash eol c rest ds
    | p :: next =>
      match storeCacheEntry strHash eol c ds (p :: next) with
      | .error h => .error h
      | .ok ds1 => addCacheLinesToDataStore strHash eol c rest ds1

/-- `Importer::addCacheToDataStore`. -/
def addCacheToDataStore (strHash : Str → Nat) (eol : Str) (c : Cache) (ds : DataStore) :
    Except Halt DataStore :=
  addCacheLinesToDataStore strHash eol c (List.finRange HASH_SIZE) ds

/-! ## The import driver -/

/-- `Importer::validateHeader`. -/
def validateHeader (_header : Str) : Bool := true

/-- The `while (getline(importFileStream, importFileData))` loop of
`Importer::importDataFile` on the lines still unread. -/
def importLines (strHash : Str → Nat) (eol : Str) (readHeader : Bool) (lines : List Str)
    (st : Cache × DataStore) : Except Halt (Cache × DataStore) :=
  match lines with
  | [] => .ok st
  | importFileData :: rest =>
    if !readHeader then
      if !validateHeader importFileData then .ok st
      else importLines strHash eol true rest st
    else
      match convertToRec importFileData with
      | .error h => .error h
      | .ok none => .ok st
      | .ok (some newRec) =>
        match addToCache strHash st.1 newRec with
        | .error h => .error h
        | .ok c1 =>
          if c1.numCachedRecs ≥ MAX_CACHED_RECS then
            match addCacheToDataStore strHash eol c1 st.2 with
            | .error h => .error h
            | .ok ds1 => importLines strHash eol readHeader rest (clearCache c1, ds1)
          else importLines strHash eol readHeader rest (c1, st.2)

/-- The files that can be opened for reading, as lists of lines (`none`: cannot be
opened). -/
abbrev ImportFiles := Str → Option (List Str)

/-- `Importer::importDataFile`. -/
def importDataFile (strHash : Str → Nat) (eol : Str) (files : ImportFiles) (fileName : Str)
    (st : Cache × DataStore) : Except Halt (Cache × DataStore) :=
  if fileName.isEmpty then .error .assertFailed
  else
    match files fileName with
    | none => .ok st
    | some lines => importLines strHash eol false lines st

/-- The `while (getline(fileListStream, importFile))` loop of `Importer::importDataAll`. -/
def importDataFiles (strHash : Str → Nat) (eol : Str) (files : ImportFiles)
    (names : List Str) (st : Cache × DataStore) : Except Halt (Cache × DataStore) :=
  match names with
  | [] => .ok st
  | importFile :: rest =>
    match importDataFile strHash eol files importFile st with
    | .error h => .error h
    | .ok st1 => importDataFiles strHash eol files rest st1

/-- `Importer::importDataAll`. -/
def importDataAll (strHash : Str → Nat) (eol : Str) (files : ImportFiles) (fileList : Str)
    (st : Cache × DataStore) : Except Halt (Cache × DataStore) :=
  if fileList.isEmpty then .error (.exit 1)
  else
    match files fileList with
    | none => .error (.exit 1)
    | some names =>
      match importDataFiles strHash eol files names st with
      | .error h => .error h
      | .ok st1 =>
        match addCacheToDataStore strHash eol st1.1 st1.2 with
        | .error h => .error h
        | .ok ds1 => .ok (clearCache st1.1, ds1)

/-! ## Words of the specification -/

/-- The fields obtained by splitting a line at every `|`. -/
def pipeFields (line : Str) : List Str :=
  match line with
  | [] => [[]]
  | c :: cs =>
    if c = '|' then [] :: pipeFields cs
    else
      match pipeFields cs with
      | [] => [[c]]
      | f :: fs => (c :: f) :: fs

/-- The lines of a datastore file as bytes, every line followed by the terminator. -/
def fileOfLines (eol : Str) (lines : List Str) : Str := lines.flatMap (fun l => l ++ eol)

/-! ## Sample data -/

/-- A hash that sends every key to its length: keys of equal length share a cache line. -/
def lengthHash : Str → Nat := fun s => s.length

/-- The record of `stb1|The Matrix|WB|2014-04-01|4.00|1:30`. -/
def matrix130 : cacheRec :=
  ⟨"stb1".toList, "The Matrix".toList, "2014-04-01".toList,
    "stb1|The Matrix|WB|2014-04-01|4.00|1:30".toList⟩

/-- The record of `stb1|The Matrix|WB|2014-04-01|4.00|1:45`. -/
def matrix145 : cacheRec :=
  ⟨"stb1".toList, "The Matrix".toList, "2014-04-01".toList,
    "stb1|The Matrix|WB|2014-04-01|4.00|1:45".toList⟩

/-- The record of `stb2|The Hobbit|WB|2014-04-02|8.00|2:45`. -/
def hobbit245 : cacheRec :=
  ⟨"stb2".toList, "The Hobbit".toList, "2014-04-02".toList,
    "stb2|The Hobbit|WB|2014-04-02|8.00|2:45".toList⟩

/-- The record of `stb1|Unbreakable|BV|2014-04-03|6.00|2:05`. -/
def unbreakable205 : cacheRec :=
  ⟨"stb1".toList, "Unbreakable".toList, "2014-04-03".toList,
    "stb1|Unbreakable|BV|2014-04-03|6.00|2:05".toList⟩

/-- The record of the line `a…a|t|p|d` with `k + 1` letters `a`. -/
def keyRec (k : Nat) : cacheRec :=
  ⟨List.replicate (k + 1) 'a', ['t'], ['d'],
    List.replicate (k + 1) 'a' ++ ['|', 't', '|', 'p', '|', 'd']⟩

/-- The two-byte line terminator of a text-mode stream that translates (`\r\n`). -/
def crlf : Str := ['\r', '\n']

/-- The one-byte line terminator (`\n`). -/
def lf : Str := ['\n']

/-- A datastore in which every file exists and is empty. -/
def emptyStore : DataStore := fun _ => some []

/-- Import files for a batch of two: `list` names `A.txt` and `B.txt`; `A.txt` has a header
and one record line, `B.txt` a header, one record line and a line with two fields. -/
def batchFiles : ImportFiles := fun name =>
  if name = "list".toList then some ["A.txt".toList, "B.txt".toList]
  else if name = "A.txt".toList then
    some ["STB|TITLE|PROVIDER|DATE|REV|VIEW_TIME".toList,
      "stb1|The Matrix|WB|2014-04-01|4.00|1:30".toList]
  else if name = "B.txt".toList then
    some ["STB|TITLE|PROVIDER|DATE|REV|VIEW_TIME".toList,
      "stb2|The Hobbit|WB|2014-04-02|8.00|2:45".toList,
      "stb3|Unbreakable".toList]
  else none

/-- The record that the scan of `storeCacheEntry` looks up for a datastore line: the line
starts with `1|`, what follows parses, and the parsed `stb` is not empty. -/
def liveRec (l : Str) : Option cacheRec :=
  match l with
  | flag :: bar :: raw =>
    if flag = '1' ∧ bar = '|' then
      match convertToRec (cString raw) with
      | .ok (some r) => if r.stb.isEmpty then none else some r
      | _ => none
    else none
  | _ => none

/-- A line as the datastore format has it and as the scan can take it: it holds no byte of
the line terminator, its length fits the `int` arithmetic of the seeks, and it is either
tombstoned (first byte `0`) or a live line that parses. -/
def StoreLine (eol : Str) (l : Str) : Prop :=
  (∀ ch ∈ l, ch ∉ eol) ∧ l.length + 2 ≤ 2 ^ 31 ∧ (l.head? = some '0' ∨ (liveRec l).isSome)

instance (eol l : Str) : Decidable (StoreLine eol l) := by
  unfold StoreLine; infer_instance

/-- A datastore line after the scan, when the seeks land on its first byte: the first byte
is `0` if `checkCacheForRecord` returned true for the line, otherwise the line is as it
was. -/
def tombstone (strHash : Str → Nat) (c : Cache) (l : Str) : Str :=
  match checkCacheForRecord strHash c l with
  | .ok true => '0' :: l.tail
  | _ => l

/-- The text of the datastore line of a record: `1|<rawData>`. -/
def dsText (r : cacheRec) : Str := '1' :: '|' :: r.rawData

/-- The cache line index of a non-empty key. -/
def lineIndex (strHash : Str → Nat) (str : Str) : Fin HASH_SIZE :=
  ⟨strHash str % HASH_SIZE, Nat.mod_lt _ (by decide)⟩

/-- The cache after inserting `a` and then `b` into the empty cache, when their keys differ
and share a cache line: `b` is linked behind `a` on the `diffKey` list. -/
def twoKeyCache (strHash : Str → Nat) (a b : cacheRec) : Cache :=
  ⟨Function.update (fun _ => []) (lineIndex strHash a.stb) [⟨a, []⟩, ⟨b, []⟩], 2⟩

/-- The cache after inserting `a` into the empty cache. -/
def oneKeyCache (strHash : Str → Nat) (a : cacheRec) : Cache :=
  ⟨Function.update (fun _ => []) (lineIndex strHash a.stb) [⟨a, []⟩], 1⟩

/-- The datastore in which file `i` holds `lines` and every other file is empty. -/
def storeWith (eol : Str) (i : Fin HASH_SIZE) (lines : List Str) : DataStore :=
  Function.update emptyStore i (some (fileOfLines eol lines))

/-- The bytes of file `i` after a flush step that returned. -/
def fileAfter (res : Except Halt DataStore) (i : Fin HASH_SIZE) : Except Halt (Option Str) :=
  match res with
  | .error h => .error h
  | .ok ds => .ok (ds i)

/-- The datastore line `1|stb1|The Matrix|WB|2014-04-01|4.00|1:30`. -/
def live130 : Str := "1|stb1|The Matrix|WB|2014-04-01|4.00|1:30".toList

/-- The datastore line `0|stb1|The Matrix|WB|2014-04-01|4.00|1:30`. -/
def dead130 : Str := "0|stb1|The Matrix|WB|2014-04-01|4.00|1:30".toList

/-- The datastore line `1|stb1|The Matrix|WB|2014-04-01|4.00|1:45`. -/
def live145 : Str := "1|stb1|The Matrix|WB|2014-04-01|4.00|1:45".toList

/-- The datastore line `1|stb1|Unbreakable|BV|2014-04-03|6.00|2:05`. -/
def live205 : Str := "1|stb1|Unbreakable|BV|2014-04-03|6.00|2:05".toList

/-- The datastore line `1|stb2|The Hobbit|WB|2014-04-02|8.00|2:30`, an earlier import of the
logical record of `hobbit245`. -/
def live230 : Str := "1|stb2|The Hobbit|WB|2014-04-02|8.00|2:30".toList

/-- The datastore line `1|stb2|The Hobbit|WB|2014-04-02|8.00|2:45`. -/
def live245 : Str := "1|stb2|The Hobbit|WB|2014-04-02|8.00|2:45".toList

/-- The cache states reached from the empty cache by `addToCache` calls that return and by
`clearCache` calls. -/
inductive ReachableWithClear (strHash : Str → Nat) : Cache → Prop where
  | empty : ReachableWithClear strHash emptyCache
  | add {c c1 : Cache} (rec : cacheRec) :
      ReachableWithClear strHash c → addToCache strHash c rec = .ok c1 →
      ReachableWithClear strHash c1
  | clear {c : Cache} : ReachableWithClear strHash c → ReachableWithClear strHash (clearCache c)

/-- The number of record nodes linked in the cache: over all cache lines, every `diffKey`
node and every node on its `sameKey` list. -/
def nodeCount (c : Cache) : Nat :=
  ((List.finRange HASH_SIZE).map (fun i => (lineRecs (c.importCache i)).length)).sum

/-- The `diffKey` nodes of a cache line have pairwise different `stb`. -/
def DistinctStb (line : List cacheNode) : Prop :=
  line.Pairwise (fun p q => p.own.stb ≠ q.own.stb)

instance (line : List cacheNode) : Decidable (DistinctStb line) := by
  unfold DistinctStb; infer_instance

/-- The record of the line `a…a|u|p|e` with `k + 1` letters `a`: the key of `keyRec k`,
another title and date. -/
def keyRec2 (k : Nat) : cacheRec :=
  ⟨List.replicate (k + 1) 'a', ['u'], ['e'],
    List.replicate (k + 1) 'a' ++ ['|', 'u', '|', 'p', '|', 'e']⟩

/-- The records `keyRec 0`, ..., `keyRec (n - 1)`: `n` records with pairwise different
keys. -/
def keyRecs (n : Nat) : List cacheRec := (List.range n).map keyRec

/-- The import lines of `keyRecs n`. -/
def keyLines (n : Nat) : List Str := (List.range n).map (fun k => (keyRec k).rawData)

/-- A datastore directory without any file. -/
def noStore : DataStore := fun _ => none

/-- Import files for a batch of one: `list` names `C.txt`, which has a header and a record
line whose first field is empty. -/
def noKeyFiles : ImportFiles := fun name =>
  if name = "list".toList then some ["C.txt".toList]
  else if name = "C.txt".toList then
    some ["STB|TITLE|PROVIDER|DATE|REV|VIEW_TIME".toList,
      "|The Matrix|WB|2014-04-01|4.00|1:30".toList]
  else none

/-- At most one live line per logical key: the records of the live lines that parse have
pairwise different logical keys. -/
def UniqueLive (lines : List Str) : Prop :=
  (lines.filterMap liveRec).Pairwise (fun a b => ¬ SameKey a b)

instance (lines : List Str) : Decidable (UniqueLive lines) := by
  unfold UniqueLive; infer_instance

/-! ## Lemmas on the cache operations -/

theorem getHash_ok (strHash : Str → Nat) {str : Str} (h : str ≠ []) :
    getHash strHash str = .ok ⟨strHash str % HASH_SIZE, Nat.mod_lt _ (by decide)⟩ := by
  cases str with
  | nil => exact absurd rfl h
  | cons a l => rfl

theorem getHash_eq_ok (strHash : Str → Nat) {str : Str} {i : Fin HASH_SIZE}
    (h : getHash strHash str = .ok i) : str ≠ [] ∧ i.val = strHash str % HASH_SIZE := by
  cases str with
  | nil => simp [getHash] at h
  | cons a l =>
    simp only [getHash, List.isEmpty_cons, Bool.false_eq_true, if_false, Except.ok.injEq] at h
    subst h
    exact ⟨by simp, rfl⟩

theorem sameLogicalRec_iff (a b : cacheRec) : sameLogicalRec a b = true ↔ SameKey a b := by
  unfold sameLogicalRec SameKey
  by_cases h1 : a.stb = b.stb <;> by_cases h2 : a.title = b.title <;>
    by_cases h3 : a.date = b.date <;> simp [h1, h2, h3]

theorem SameKey.symm {a b : cacheRec} (h : SameKey a b) : SameKey b a :=
  ⟨h.1.symm, h.2.1.symm, h.2.2.symm⟩

theorem SameKey.trans {a b c : cacheRec} (h : SameKey a b) (h2 : SameKey b c) : SameKey a c :=
  ⟨h.1.trans h2.1, h.2.1.trans h2.2.1, h.2.2.trans h2.2.2⟩

/-- Whatever holds of the walked records and of the new one, and survives a change of
`rawData`, holds of every record of the list that `addToCacheSameKey` leaves. -/
theorem addToCacheSameKey_all (P : cacheRec → Prop) (rec : cacheRec)
    (hraw : ∀ x, P x → P { x with rawData := rec.rawData }) (hrec : P rec) (n : Nat) :
    ∀ (next : List cacheRec) (p : cacheRec), P p → (∀ x ∈ next, P x) →
      ∀ x ∈ (addToCacheSameKey p next rec n).1.chain, P x := by
  intro next
  induction next with
  | nil =>
    intro p hp _ x hx
    simp only [addToCacheSameKey, cacheNode.chain, List.mem_cons, List.mem_singleton,
      List.not_mem_nil, or_false] at hx
    rcases hx with rfl | rfl
    · exact hp
    · exact hrec
  | cons q rest ih =>
    intro p hp hnext x hx
    unfold addToCacheSameKey at hx
    split at hx
    · simp only [cacheNode.chain, List.mem_cons] at hx
      rcases hx with rfl | rfl | hx
      · exact hraw _ hp
      · exact hnext _ (List.mem_cons_self _ _)
      · exact hnext _ (List.mem_cons_of_mem _ hx)
    · simp only [cacheNode.chain, List.mem_cons] at hx
      rcases hx with rfl | hx
      · exact hp
      · exact ih q (hnext _ (List.mem_cons_self _ _))
          (fun y hy => hnext _ (List.mem_cons_of_mem _ hy)) x
          (by simpa [cacheNode.chain] using hx)

/-- The `diffKey` node that `addToCacheSameKey` leaves keeps the `stb` of the node it was
called on. -/
theorem addToCacheSameKey_own_stb (rec : cacheRec) (n : Nat) (next : List cacheRec)
    (p : cacheRec) : (addToCacheSameKey p next rec n).1.own.stb = p.stb := by
  cases next with
  | nil => rfl
  | cons q rest =>
    unfold addToCacheSameKey
    split <;> rfl

/-- When no walked record has the logical key of the new one, `addToCacheSameKey` links it
and counts it. -/
theorem addToCacheSameKey_count (rec : cacheRec) (n : Nat) :
    ∀ (next : List cacheRec) (p : cacheRec), (∀ x ∈ p :: next, ¬ SameKey x rec) →
      (addToCacheSameKey p next rec n).2 = n + 1 := by
  intro next
  induction next with
  | nil => intro p _; rfl
  | cons q rest ih =>
    intro p h
    unfold addToCacheSameKey
    have hp : sameLogicalRec p rec = false := by
      rw [Bool.eq_false_iff]
      intro hc
      exact h p (List.mem_cons_self _ _) ((sameLogicalRec_iff _ _).1 hc)
    simp only [hp, Bool.false_eq_true, if_false]
    exact ih q (fun x hx => h x (List.mem_cons_of_mem _ hx))


/-- Whatever holds of the walked nodes and of a fresh node for the new record, and is kept
by `addToCacheSameKey` on a node with the `stb` of the new record, holds of every node of
the list that `addToCacheDiffKey` leaves. -/
theorem addToCacheDiffKey_all (Q : cacheNode → Prop) (rec : cacheRec) (n : Nat)
    (hnew : Q ⟨rec, []⟩)
    (hsame : ∀ node, Q node → node.own.stb = rec.stb →
      Q (addToCacheSameKey node.own node.sameKey rec n).1) :
    ∀ (next : List cacheNode) (p : cacheNode), Q p → (∀ node ∈ next, Q node) →
      ∀ node ∈ (addToCacheDiffKey p next rec n).1, Q node := by
  intro next
  induction next with
  | nil =>
    intro p hp _ node hnode
    simp only [addToCacheDiffKey, List.mem_cons, List.mem_singleton, List.not_mem_nil,
      or_false] at hnode
    rcases hnode with rfl | rfl
    · exact hp
    · exact hnew
  | cons q rest ih =>
    intro p hp hnext node hnode
    unfold addToCacheDiffKey at hnode
    split at hnode
    · rename_i hstb
      simp only [List.mem_cons] at hnode
      rcases hnode with rfl | rfl | hnode
      · exact hsame p hp hstb
      · exact hnext _ (List.mem_cons_self _ _)
      · exact hnext _ (List.mem_cons_of_mem _ hnode)
    · simp only [List.mem_cons] at hnode
      rcases hnode with rfl | hnode
      · exact hp
      · exact ih q (hnext _ (List.mem_cons_self _ _))
          (fun y hy => hnext _ (List.mem_cons_of_mem _ hy)) node hnode

/-- When no record of the walked nodes has the logical key of the new one,
`addToCacheDiffKey` links it and counts it. -/
theorem addToCacheDiffKey_count (rec : cacheRec) (n : Nat) :
    ∀ (next : List cacheNode) (p : cacheNode),
      (∀ node ∈ p :: next, ∀ x ∈ node.chain, ¬ SameKey x rec) →
      (addToCacheDiffKey p next rec n).2 = n + 1 := by
  intro next
  induction next with
  | nil => intro p _; rfl
  | cons q rest ih =>
    intro p h
    unfold addToCacheDiffKey
    split
    · exact addToCacheSameKey_count rec n p.sameKey p.own
        (fun x hx => h p (List.mem_cons_self _ _) x hx)
    · exact ih q (fun node hnode => h node (List.mem_cons_of_mem _ hnode))

/-- The cache line that `addToCache` changes, and what holds of its nodes afterwards. -/
theorem addToCache_nodes (strHash : Str → Nat) (Q : Fin HASH_SIZE → cacheNode → Prop)
    (c c1 : Cache) (rec : cacheRec)
    (hadd : addToCache strHash c rec = .ok c1)
    (hc : ∀ i, ∀ node ∈ c.importCache i, Q i node)
    (hnew : ∀ i, getHash strHash rec.stb = .ok i → Q i ⟨rec, []⟩)
    (hsame : ∀ i node n, getHash strHash rec.stb = .ok i → Q i node →
      node.own.stb = rec.stb → Q i (addToCacheSameKey node.own node.sameKey rec n).1) :
    ∀ i, ∀ node ∈ c1.importCache i, Q i node := by
  unfold addToCache at hadd
  split at hadd
  · exact absurd hadd (by simp)
  · rename_i index hidx
    have key : ∀ line : List cacheNode, (∀ node ∈ line, Q index node) →
        ∀ i, ∀ node ∈ Function.update c.importCache index line i, Q i node := by
      intro line hline i node hnode
      by_cases hi : i = index
      · subst hi
        rw [Function.update_same] at hnode
        exact hline node hnode
      · rw [Function.update_noteq hi] at hnode
        exact hc i node hnode
    split at hadd
    · simp only [Except.ok.injEq] at hadd
      subst hadd
      exact key _ (fun node hnode => by
        rw [List.mem_singleton] at hnode
        subst hnode
        exact hnew index hidx)
    · rename_i p next hline
      have hold : ∀ node ∈ p :: next, Q index node := fun node hnode =>
        hc index node (hline ▸ hnode)
      split at hadd
      · rename_i hstb
        simp only [Except.ok.injEq] at hadd
        subst hadd
        refine key _ (fun node hnode => ?_)
        rw [List.mem_cons] at hnode
        rcases hnode with rfl | hnode
        · exact hsame index p _ hidx (hold p (List.mem_cons_self _ _)) hstb.symm
        · exact hold node (List.mem_cons_of_mem _ hnode)
      · simp only [Except.ok.injEq] at hadd
        subst hadd
        exact key _ (addToCacheDiffKey_all (Q index) rec c.numCachedRecs (hnew index hidx)
          (fun node hq hs => hsame index node _ hidx hq hs) next p
          (hold p (List.mem_cons_self _ _))
          (fun node hnode => hold node (List.mem_cons_of_mem _ hnode)))

/-- `addToCache` returns for a record with a non-empty `stb`, and it counts the record when
no held record has its logical key. -/
theorem addToCache_count (strHash : Str → Nat) (c : Cache) (rec : cacheRec)
    (hstb : rec.stb ≠ []) (hfresh : ∀ x, Held c x → ¬ SameKey x rec) :
    ∃ c1, addToCache strHash c rec = .ok c1 ∧ c1.numCachedRecs = c.numCachedRecs + 1 := by
  unfold addToCache
  rw [getHash_ok strHash hstb]
  simp only
  generalize hidx : (⟨strHash rec.stb % HASH_SIZE, _⟩ : Fin HASH_SIZE) = index
  have hline : ∀ node ∈ c.importCache index, ∀ x ∈ node.chain, ¬ SameKey x rec :=
    fun node hnode x hx => hfresh x ⟨index, node, hnode, hx⟩
  split
  · exact ⟨_, rfl, rfl⟩
  · rename_i p next heq
    rw [heq] at hline
    split
    · exact ⟨_, rfl, addToCacheSameKey_count rec _ p.sameKey p.own
        (fun x hx => hline p (List.mem_cons_self _ _) x hx)⟩
    · exact ⟨_, rfl, addToCacheDiffKey_count rec _ next p hline⟩

/-- Every held record of a reachable-by-insertion state carries the logical key of a record
of `keys`: kept by `addToCache` when the new record joins `keys`. -/
theorem addToCache_keys (strHash : Str → Nat) (keys : List cacheRec) (c c1 : Cache)
    (rec : cacheRec) (hadd : addToCache strHash c rec = .ok c1)
    (hc : ∀ x, Held c x → ∃ k ∈ keys, SameKey x k) :
    ∀ x, Held c1 x → ∃ k ∈ rec :: keys, SameKey x k := by
  intro x hx
  obtain ⟨i, node, hnode, hmem⟩ := hx
  have hall := addToCache_nodes strHash
    (fun _ node => ∀ y ∈ node.chain, ∃ k ∈ rec :: keys, SameKey y k) c c1 rec hadd
    (fun j nd hnd y hy => by
      obtain ⟨k, hk, hs⟩ := hc y ⟨j, nd, hnd, hy⟩
      exact ⟨k, List.mem_cons_of_mem _ hk, hs⟩)
    (fun _ _ y hy => by
      simp only [cacheNode.chain, List.mem_singleton] at hy
      rw [hy]
      exact ⟨rec, List.mem_cons_self _ _, rfl, rfl, rfl⟩)
    (fun _ nd n _ hq _ y hy =>
      addToCacheSameKey_all (fun y => ∃ k ∈ rec :: keys, SameKey y k) rec
        (fun z hz => hz) ⟨rec, List.mem_cons_self _ _, rfl, rfl, rfl⟩ n nd.sameKey nd.own
        (hq _ (List.mem_cons_self _ _))
        (fun z hz => hq z (List.mem_cons_of_mem _ hz)) y hy)
  exact hall i node hnode x hmem

/-- Inserting records with pairwise-distinct logical keys, none of them the key of a held
record, counts every one of them. -/
theorem addAllToCache_count (strHash : Str → Nat) :
    ∀ (recs keys : List cacheRec) (c : Cache),
      (∀ x, Held c x → ∃ k ∈ keys, SameKey x k) →
      (∀ r ∈ recs, r.stb ≠ []) →
      recs.Pairwise (fun a b => ¬ SameKey a b) →
      (∀ r ∈ recs, ∀ k ∈ keys, ¬ SameKey k r) →
      ∃ c1, addAllToCache strHash c recs = .ok c1 ∧
        c1.numCachedRecs = c.numCachedRecs + recs.length := by
  intro recs
  induction recs with
  | nil => intro keys c _ _ _ _; exact ⟨c, rfl, rfl⟩
  | cons r rest ih =>
    intro keys c hc hstb hpair hkeys
    have hfresh : ∀ x, Held c x → ¬ SameKey x r := by
      intro x hx hs
      obtain ⟨k, hk, hxk⟩ := hc x hx
      exact hkeys r (List.mem_cons_self _ _) k hk (hxk.symm.trans hs)
    obtain ⟨c1, hadd, hcount⟩ :=
      addToCache_count strHash c r (hstb r (List.mem_cons_self _ _)) hfresh
    rw [List.pairwise_cons] at hpair
    obtain ⟨c2, hall, hcount2⟩ := ih (r :: keys) c1
      (addToCache_keys strHash keys c c1 r hadd hc)
      (fun x hx => hstb x (List.mem_cons_of_mem _ hx)) hpair.2
      (fun x hx k hk => by
        rw [List.mem_cons] at hk
        rcases hk with rfl | hk
        · exact hpair.1 x hx
        · exact hkeys x (List.mem_cons_of_mem _ hx) k hk)
    refine ⟨c2, ?_, ?_⟩
    · simp only [addAllToCache, hadd]
      exact hall
    · rw [hcount2, hcount, List.length_cons]
      omega

theorem not_held_emptyCache (x : cacheRec) : ¬ Held emptyCache x := by
  rintro ⟨i, node, hnode, _⟩
  simp [emptyCache] at hnode

/-! ## C1, C2 -/

/-- C1 (fails on the code). Inserting `stb1|The Matrix|...|1:30` and then the record with the
same logical key and `rawData` `...|1:45` into the empty cache returns, whatever the hash,
with `numCachedRecs = 2` and a cache line that holds both records: the second one is linked
behind the first, whose `rawData` is still `...|1:30`. -/
theorem addToCache_same_key_twice (strHash : Str → Nat) :
    ∃ c, addAllToCache strHash emptyCache [matrix130, matrix145] = .ok c ∧
      c.numCachedRecs = 2 ∧
      c.importCache ⟨strHash matrix130.stb % HASH_SIZE, Nat.mod_lt _ (by decide)⟩ =
        [⟨matrix130, [matrix145]⟩] ∧
      SameKey matrix130 matrix145 := by
  have h : addAllToCache strHash emptyCache [matrix130, matrix145] =
      .ok ⟨Function.update (fun _ => [])
        ⟨strHash matrix130.stb % HASH_SIZE, Nat.mod_lt _ (by decide)⟩
        [⟨matrix130, [matrix145]⟩], 2⟩ := by
    simp [addAllToCache, addToCache, getHash, matrix130, matrix145, emptyCache,
      addToCacheSameKey]
  exact ⟨_, h, rfl, by simp, by decide⟩

/-- C2. Inserting `N` records with non-empty `stb` and pairwise-distinct logical keys into
the empty cache returns with `numCachedRecs = N`, for every hash function (so whatever
collisions there are). -/
theorem addAllToCache_distinct_keys_count (strHash : Str → Nat) (recs : List cacheRec)
    (hstb : ∀ r ∈ recs, r.stb ≠ [])
    (hdistinct : recs.Pairwise (fun a b => ¬ SameKey a b)) :
    ∃ c, addAllToCache strHash emptyCache recs = .ok c ∧ c.numCachedRecs = recs.length := by
  obtain ⟨c, h, hn⟩ := addAllToCache_count strHash recs [] emptyCache
    (fun x hx => absurd hx (not_held_emptyCache x)) hstb hdistinct
    (fun _ _ k hk => absurd hk (List.not_mem_nil k))
  exact ⟨c, h, by simpa [emptyCache] using hn⟩

/-- Witness for C2: three records with distinct logical keys whose keys all fall into the
same cache line. -/
theorem addAllToCache_distinct_keys_count_witness :
    (∀ r ∈ [matrix130, hobbit245, unbreakable205], r.stb ≠ []) ∧
    [matrix130, hobbit245, unbreakable205].Pairwise (fun a b => ¬ SameKey a b) ∧
    ∃ c, addAllToCache lengthHash emptyCache [matrix130, hobbit245, unbreakable205] = .ok c ∧
      c.numCachedRecs = [matrix130, hobbit245, unbreakable205].length :=
  ⟨by decide, by decide,
    addAllToCache_distinct_keys_count lengthHash [matrix130, hobbit245, unbreakable205]
      (by decide) (by decide)⟩

/-! ## C3, C4, C10 -/

theorem findRecInSameKeyList_true (rec : cacheRec) (list : List cacheRec) :
    findRecInSameKeyList list rec = true ↔
      ∃ x ∈ list, x.title = rec.title ∧ x.date = rec.date := by
  induction list with
  | nil => simp [findRecInSameKeyList]
  | cons p rest ih =>
    unfold findRecInSameKeyList
    split
    · rename_i h
      simp only [true_iff]
      exact ⟨p, List.mem_cons_self _ _, h⟩
    · rename_i h
      rw [ih]
      constructor
      · rintro ⟨x, hx, hk⟩
        exact ⟨x, List.mem_cons_of_mem _ hx, hk⟩
      · rintro ⟨x, hx, hk⟩
        rw [List.mem_cons] at hx
        rcases hx with rfl | hx
        · exact absurd hk h
        · exact ⟨x, hx, hk⟩

theorem findRecInDiffKeyList_true (rec : cacheRec) :
    ∀ (next : List cacheNode) (p : cacheNode), findRecInDiffKeyList p next rec = true →
      ∃ node ∈ p :: next, node.own.stb = rec.stb ∧
        findRecInSameKeyList node.chain rec = true := by
  intro next
  induction next with
  | nil => intro p h; simp [findRecInDiffKeyList] at h
  | cons q rest ih =>
    intro p h
    unfold findRecInDiffKeyList at h
    split at h
    · rename_i hstb
      exact ⟨p, List.mem_cons_self _ _, hstb, h⟩
    · obtain ⟨node, hnode, hk⟩ := ih q h
      exact ⟨node, List.mem_cons_of_mem _ hnode, hk⟩

/-- In a state reached by insertions every record on a `sameKey` list has the `stb` of the
`diffKey` node the list hangs on. -/
theorem Reachable.sameKey_stb {strHash : Str → Nat} {c : Cache} (hc : Reachable strHash c) :
    ∀ i, ∀ node ∈ c.importCache i, ∀ x ∈ node.chain, x.stb = node.own.stb := by
  induction hc with
  | empty => intro i node hnode; simp [emptyCache] at hnode
  | add rec _ hadd ih =>
    refine addToCache_nodes strHash (fun _ node => ∀ x ∈ node.chain, x.stb = node.own.stb)
      _ _ rec hadd ih ?_ ?_
    · intro _ _ x hx
      simp only [cacheNode.chain, List.mem_singleton] at hx
      rw [hx]
    · intro _ node n _ hq hstb x hx
      rw [addToCacheSameKey_own_stb]
      exact addToCacheSameKey_all (fun y => y.stb = node.own.stb) rec (fun _ hz => hz)
        hstb.symm n node.sameKey node.own rfl
        (fun z hz => hq z (List.mem_cons_of_mem _ hz)) x hx

theorem Reachable.addAll {strHash : Str → Nat} :
    ∀ (recs : List cacheRec) {c c1 : Cache}, Reachable strHash c →
      addAllToCache strHash c recs = .ok c1 → Reachable strHash c1 := by
  intro recs
  induction recs with
  | nil =>
    intro c c1 hc h
    simp only [addAllToCache, Except.ok.injEq] at h
    exact h ▸ hc
  | cons r rest ih =>
    intro c c1 hc h
    unfold addAllToCache at h
    split at h
    · exact absurd h (by simp)
    · rename_i c2 hadd
      exact ih (Reachable.add r hc hadd) h

/-- Two different non-empty keys that `getHash` sends to the same cache line exist for
every hash function: among the keys `a`, `aa`, ... of up to 101 letters two collide. -/
theorem exists_collision (strHash : Str → Nat) :
    ∃ j k : Fin 101, j ≠ k ∧
      getHash strHash (keyRec j).stb = getHash strHash (keyRec k).stb := by
  obtain ⟨j, k, hne, h⟩ := Fintype.exists_ne_map_eq_of_card_lt
    (fun k : Fin 101 =>
      (⟨strHash (keyRec k).stb % HASH_SIZE, Nat.mod_lt _ (by decide)⟩ : Fin HASH_SIZE))
    (by simp [HASH_SIZE])
  refine ⟨j, k, hne, ?_⟩
  rw [getHash_ok strHash (by simp [keyRec]), getHash_ok strHash (by simp [keyRec])]
  exact congrArg _ h

/-- After inserting two records whose keys differ and share a cache line, the second one is
held (it is the last node of the `diffKey` list) and `findRecInCache` does not find it. -/
theorem findRecInCache_last_diffKey (strHash : Str → Nat) (a b : cacheRec)
    (ha : a.stb ≠ []) (hne : a.stb ≠ b.stb)
    (hcol : getHash strHash a.stb = getHash strHash b.stb) :
    ∃ c, addAllToCache strHash emptyCache [a, b] = .ok c ∧ Held c b ∧
      findRecInCache strHash c b = .ok false := by
  rw [getHash_ok strHash ha] at hcol
  refine ⟨⟨Function.update (Function.update (fun _ => [])
      ⟨strHash a.stb % HASH_SIZE, Nat.mod_lt _ (by decide)⟩ [⟨a, []⟩])
      ⟨strHash a.stb % HASH_SIZE, Nat.mod_lt _ (by decide)⟩ [⟨a, []⟩, ⟨b, []⟩], 2⟩, ?_, ?_, ?_⟩
  · simp [addAllToCache, addToCache, getHash_ok strHash ha, ← hcol, emptyCache,
      addToCacheDiffKey, Ne.symm hne]
  · exact ⟨⟨strHash a.stb % HASH_SIZE, Nat.mod_lt _ (by decide)⟩, ⟨b, []⟩, by simp,
      by simp [cacheNode.chain]⟩
  · simp [findRecInCache, ← hcol, findRecInDiffKeyList, Ne.symm hne, hne]

/-- C3 (fails on the code). For every hash function there are two records with non-empty
`stb` such that, after inserting the first and then the second into the empty cache, the
second is held in the (reachable) cache and `findRecInCache` returns false for it. -/
theorem findRecInCache_incomplete (strHash : Str → Nat) :
    ∃ j k : Fin 101, ∃ c, (keyRec j).stb ≠ [] ∧ (keyRec k).stb ≠ [] ∧
      addAllToCache strHash emptyCache [keyRec j, keyRec k] = .ok c ∧
      Reachable strHash c ∧ Held c (keyRec k) ∧
      findRecInCache strHash c (keyRec k) = .ok false := by
  obtain ⟨j, k, hne, hcol⟩ := exists_collision strHash
  have hkeys : (keyRec j).stb ≠ (keyRec k).stb := by
    intro h
    have hlen := congrArg List.length h
    simp only [keyRec, List.length_replicate, add_left_inj] at hlen
    exact hne (Fin.ext hlen)
  obtain ⟨c, hadd, hheld, hfind⟩ := findRecInCache_last_diffKey strHash (keyRec j) (keyRec k)
    (by simp [keyRec]) hkeys hcol
  exact ⟨j, k, c, by simp [keyRec], by simp [keyRec], hadd,
    Reachable.addAll _ Reachable.empty hadd, hheld, hfind⟩

/-- C4. In a state reached from the empty cache by insertions, when `findRecInCache`
returns true for a record with non-empty `stb`, the cache line `getHash(rec.stb)` holds a
record whose `stb`, `title` and `date` are those of the record. -/
theorem findRecInCache_sound (strHash : Str → Nat) (c : Cache) (rec : cacheRec)
    (hc : Reachable strHash c) (hstb : rec.stb ≠ [])
    (hfind : findRecInCache strHash c rec = .ok true) :
    ∃ i, getHash strHash rec.stb = .ok i ∧ ∃ x, HeldIn c i x ∧ SameKey x rec := by
  refine ⟨_, getHash_ok strHash hstb, ?_⟩
  unfold findRecInCache at hfind
  rw [getHash_ok strHash hstb] at hfind
  simp only at hfind
  generalize (⟨strHash rec.stb % HASH_SIZE, _⟩ : Fin HASH_SIZE) = index at hfind ⊢
  have hinv := hc.sameKey_stb index
  split at hfind
  · simp at hfind
  · rename_i p next hline
    have found : ∀ node ∈ p :: next, node.own.stb = rec.stb →
        findRecInSameKeyList node.chain rec = true → ∃ x, HeldIn c index x ∧ SameKey x rec := by
      intro node hnode hs ht
      obtain ⟨x, hx, htitle, hdate⟩ := (findRecInSameKeyList_true rec node.chain).1 ht
      refine ⟨x, ⟨node, hline ▸ hnode, hx⟩, ?_, htitle, hdate⟩
      rw [hinv node (hline ▸ hnode) x hx, hs]
    split at hfind
    · rename_i hs
      simp only [Except.ok.injEq] at hfind
      exact found p (List.mem_cons_self _ _) hs.symm hfind
    · simp only [Except.ok.injEq] at hfind
      obtain ⟨node, hnode, hs, ht⟩ := findRecInDiffKeyList_true rec next p hfind
      exact found node hnode hs ht

/-- Witness for C4: after inserting the `1:30` and the Hobbit record (their keys share a
cache line under `lengthHash`) the `1:45` record is reported as found, and the `1:30` record
with the same logical key is held. -/
theorem findRecInCache_sound_witness :
    ∃ c, addAllToCache lengthHash emptyCache [matrix130, hobbit245] = .ok c ∧
      Reachable lengthHash c ∧ matrix145.stb ≠ [] ∧
      findRecInCache lengthHash c matrix145 = .ok true ∧
      ∃ i, getHash lengthHash matrix145.stb = .ok i ∧
        ∃ x, HeldIn c i x ∧ SameKey x matrix145 := by
  have hadd : addAllToCache lengthHash emptyCache [matrix130, hobbit245] = .ok
      ⟨Function.update (Function.update (fun _ => []) ⟨4, by decide⟩ [⟨matrix130, []⟩])
        ⟨4, by decide⟩ [⟨matrix130, []⟩, ⟨hobbit245, []⟩], 2⟩ := rfl
  have hreach := Reachable.addAll _ Reachable.empty hadd
  exact ⟨_, hadd, hreach, by decide, by decide,
    findRecInCache_sound lengthHash _ matrix145 hreach (by decide) (by decide)⟩

/-- C10. After `clearCache` every cache line is empty, `numCachedRecs` is 0 and
`findRecInCache` returns false for every record with non-empty `stb`. -/
theorem clearCache_empty (strHash : Str → Nat) (c : Cache) (rec : cacheRec)
    (hstb : rec.stb ≠ []) :
    (∀ i, (clearCache c).importCache i = []) ∧ (clearCache c).numCachedRecs = 0 ∧
      findRecInCache strHash (clearCache c) rec = .ok false := by
  refine ⟨fun _ => rfl, rfl, ?_⟩
  unfold findRecInCache
  rw [getHash_ok strHash hstb]
  rfl

/-- Witness for C10: the cache that holds the `1:30` record, cleared, no longer reports
it. -/
theorem clearCache_empty_witness :
    matrix130.stb ≠ [] ∧
    (∀ i, (clearCache ⟨Function.update (fun _ => []) ⟨4, by decide⟩ [⟨matrix130, []⟩],
      1⟩).importCache i = []) ∧
    (clearCache ⟨Function.update (fun _ => []) ⟨4, by decide⟩ [⟨matrix130, []⟩],
      1⟩).numCachedRecs = 0 ∧
    findRecInCache lengthHash
      (clearCache ⟨Function.update (fun _ => []) ⟨4, by decide⟩ [⟨matrix130, []⟩], 1⟩)
      matrix130 = .ok false :=
  ⟨by decide, clearCache_empty lengthHash _ matrix130 (by decide)⟩

/-! ## C7, C8: parsing -/

theorem pipeFields_ne_nil (s : Str) : pipeFields s ≠ [] := by
  cases s with
  | nil => simp [pipeFields]
  | cons c cs =>
    unfold pipeFields
    split
    · simp
    · split <;> simp

/-- One `getline` step against the split at every `|`: either the line has no `|` (then
the whole line is extracted and nothing is left), or the first field is extracted and the
fields of the rest are the remaining fields. -/
theorem readUntil_pipeFields (s : Str) :
    (readUntil '|' s = (s, []) ∧ pipeFields s = [s]) ∨
    (pipeFields s = (readUntil '|' s).1 :: pipeFields (readUntil '|' s).2) := by
  induction s with
  | nil => left; exact ⟨rfl, rfl⟩
  | cons c cs ih =>
    by_cases hc : c = '|'
    · right
      simp [readUntil, pipeFields, hc]
    · rcases ih with ⟨h1, h2⟩ | h
      · left
        simp [readUntil, pipeFields, hc, h1, h2]
      · right
        simp only [readUntil, pipeFields, hc, if_false]
        rw [h]

theorem getlineDelim_pipeFields (s f : Str) (fs : List Str) (hne : s ≠ [])
    (h : pipeFields s = f :: fs) :
    ∃ t, getlineDelim '|' s = some (f, t) ∧ ((fs = [] ∧ t = []) ∨ pipeFields t = fs) := by
  have hget : getlineDelim '|' s = some (readUntil '|' s) := by
    cases s with
    | nil => exact absurd rfl hne
    | cons c cs => rfl
  rcases readUntil_pipeFields s with ⟨h1, h2⟩ | h2
  · rw [h2] at h
    simp only [List.cons.injEq] at h
    refine ⟨[], ?_, Or.inl ⟨h.2.symm, rfl⟩⟩
    rw [hget, h1, h.1]
  · rw [h2] at h
    simp only [List.cons.injEq] at h
    refine ⟨(readUntil '|' s).2, ?_, Or.inr h.2⟩
    rw [hget, ← h.1]

theorem pipeFields_nil : pipeFields [] = [[]] := rfl

/-- The record that `convertToRec` returns, from the split of the line at every `|`. -/
theorem convertToRec_of_fields (input f0 f1 f2 f3 : Str) (rest : List Str)
    (hfields : pipeFields input = f0 :: f1 :: f2 :: f3 :: rest)
    (hlast : f3 ≠ [] ∨ rest ≠ []) :
    convertToRec input = .ok (some ⟨f0, f1, f3, input⟩) := by
  have h0 : input ≠ [] := by rintro rfl; simp [pipeFields_nil] at hfields
  obtain ⟨t1, hg1, hr1⟩ := getlineDelim_pipeFields input f0 _ h0 hfields
  rcases hr1 with ⟨hc, _⟩ | hr1
  · simp at hc
  have h1 : t1 ≠ [] := by rintro rfl; simp [pipeFields_nil] at hr1
  obtain ⟨t2, hg2, hr2⟩ := getlineDelim_pipeFields t1 f1 _ h1 hr1
  rcases hr2 with ⟨hc, _⟩ | hr2
  · simp at hc
  have h2 : t2 ≠ [] := by rintro rfl; simp [pipeFields_nil] at hr2
  obtain ⟨t3, hg3, hr3⟩ := getlineDelim_pipeFields t2 f2 _ h2 hr2
  rcases hr3 with ⟨hc, _⟩ | hr3
  · simp at hc
  have h3 : t3 ≠ [] := by
    rintro rfl
    simp only [pipeFields_nil, List.cons.injEq] at hr3
    rcases hlast with h | h
    · exact h hr3.1.symm
    · exact h hr3.2.symm
  obtain ⟨t4, hg4, _⟩ := getlineDelim_pipeFields t3 f3 _ h3 hr3
  unfold convertToRec
  have he : input.isEmpty = false := by
    cases input with
    | nil => exact absurd rfl h0
    | cons _ _ => rfl
  simp only [he, Bool.false_eq_true, if_false, hg1, hg2, hg3, hg4]

/-- C7 as amended. When the split of the line at every `|` has at least four fields and the
fourth field is not an empty last field, `convertToRec` returns a record: `stb` is the first
field, `title` the second, `date` the fourth, `rawData` the whole line. -/
theorem convertToRec_four_fields (input f0 f1 f2 f3 : Str) (rest : List Str)
    (hfields : pipeFields input = f0 :: f1 :: f2 :: f3 :: rest)
    (hlast : f3 ≠ [] ∨ rest ≠ []) :
    convertToRec input = .ok (some ⟨f0, f1, f3, input⟩) :=
  convertToRec_of_fields input f0 f1 f2 f3 rest hfields hlast

/-- Witness for C7 as amended: the line of scenario A. -/
theorem convertToRec_four_fields_witness :
    pipeFields "stb1|The Matrix|WB|2014-04-01|4.00|1:30".toList =
      "stb1".toList :: "The Matrix".toList :: "WB".toList :: "2014-04-01".toList ::
        ["4.00".toList, "1:30".toList] ∧
    convertToRec "stb1|The Matrix|WB|2014-04-01|4.00|1:30".toList = .ok (some matrix130) :=
  ⟨by decide,
    convertToRec_four_fields _ "stb1".toList "The Matrix".toList "WB".toList
      "2014-04-01".toList ["4.00".toList, "1:30".toList] (by decide) (by decide)⟩

/-- C7 (fails on the code as stated). The line `a|b|c|` splits into the four fields `a`,
`b`, `c` and the empty field, and `convertToRec` leaves through `exit(0)` on it. -/
theorem convertToRec_empty_last_field :
    (pipeFields "a|b|c|".toList).length = 4 ∧
      convertToRec "a|b|c|".toList = .error (.exit 0) := by
  decide

/-- C8. On a non-empty line whose split at every `|` has fewer than four fields
`convertToRec` leaves through one of its `exit(0)` calls and returns no record. -/
theorem convertToRec_fewer_fields (input : Str) (hne : input ≠ [])
    (hfields : (pipeFields input).length < 4) :
    convertToRec input = .error (.exit 0) := by
  have he : input.isEmpty = false := by
    cases input with
    | nil => exact absurd rfl hne
    | cons _ _ => rfl
  have hnone : getlineDelim '|' [] = none := rfl
  unfold convertToRec
  simp only [he, Bool.false_eq_true, if_false]
  obtain ⟨f0, fs0, e0⟩ := List.exists_cons_of_ne_nil (pipeFields_ne_nil input)
  obtain ⟨t1, hg1, hr1⟩ := getlineDelim_pipeFields input f0 fs0 hne e0
  rw [e0] at hfields
  simp only [hg1]
  by_cases h1 : t1 = []
  · simp only [h1, hnone]
  rcases hr1 with ⟨_, hc⟩ | hr1
  · exact absurd hc h1
  obtain ⟨f1, fs1, e1⟩ := List.exists_cons_of_ne_nil (pipeFields_ne_nil t1)
  obtain ⟨t2, hg2, hr2⟩ := getlineDelim_pipeFields t1 f1 fs1 h1 e1
  rw [← hr1, e1] at hfields
  simp only [hg2]
  by_cases h2 : t2 = []
  · simp only [h2, hnone]
  rcases hr2 with ⟨_, hc⟩ | hr2
  · exact absurd hc h2
  obtain ⟨f2, fs2, e2⟩ := List.exists_cons_of_ne_nil (pipeFields_ne_nil t2)
  obtain ⟨t3, hg3, hr3⟩ := getlineDelim_pipeFields t2 f2 fs2 h2 e2
  rw [← hr2, e2] at hfields
  simp only [hg3]
  by_cases h3 : t3 = []
  · simp only [h3, hnone]
  rcases hr3 with ⟨_, hc⟩ | hr3
  · exact absurd hc h3
  have := pipeFields_ne_nil t3
  rw [hr3] at this
  obtain ⟨f3, fs3, e3⟩ := List.exists_cons_of_ne_nil this
  rw [e3] at hfields
  simp only [List.length_cons] at hfields
  omega

/-- Witness for C8: a line with three fields. -/
theorem convertToRec_fewer_fields_witness :
    "stb1|The Matrix|WB".toList ≠ [] ∧
    (pipeFields "stb1|The Matrix|WB".toList).length < 4 ∧
    convertToRec "stb1|The Matrix|WB".toList = .error (.exit 0) :=
  ⟨by decide, by decide, convertToRec_fewer_fields _ (by decide) (by decide)⟩

/-! ## C9: a line that does not parse -/

/-- `convertToRec` never returns `nullptr`: it returns a record or ends the process. -/
theorem convertToRec_ne_null (input : Str) : convertToRec input ≠ .ok none := by
  unfold convertToRec
  split
  · simp
  · repeat' split
    all_goals simp

/-- When `convertToRec` ends the process on a line, so does the staging loop, whatever is
staged and whatever lines and files follow. -/
theorem importLines_halt (strHash : Str → Nat) (eol : Str) (line : Str) (rest : List Str)
    (st : Cache × DataStore) (h : Halt) (hconv : convertToRec line = .error h) :
    importLines strHash eol true (line :: rest) st = .error h := by
  simp [importLines, hconv]

/-- C9 (fails on the code). `convertToRec` has no failure return, and on the batch `A.txt`
(one good line), `B.txt` (one good line, then the line `stb3|Unbreakable`) the run of
`importDataAll` ends in `exit(0)` inside `convertToRec`: `importDataFile` does not return
and nothing is flushed. -/
theorem importDataAll_malformed_line_exits :
    (∀ input, convertToRec input ≠ .ok none) ∧
    importDataAll lengthHash crlf batchFiles "list".toList (emptyCache, emptyStore) =
      .error (.exit 0) ∧
    importDataFile lengthHash crlf batchFiles "B.txt".toList (emptyCache, emptyStore) =
      .error (.exit 0) :=
  ⟨convertToRec_ne_null, rfl, rfl⟩

/-! ## The scan of a datastore file -/

theorem toInt32_of_range (z : Int) (h1 : -2 ^ 31 ≤ z) (h2 : z < 2 ^ 31) : toInt32 z = z := by
  unfold toInt32
  omega

theorem fileOfLines_cons (eol l : Str) (ls : List Str) :
    fileOfLines eol (l :: ls) = l ++ eol ++ fileOfLines eol ls := by
  simp [fileOfLines]

theorem fileOfLines_append (eol : Str) (a b : List Str) :
    fileOfLines eol (a ++ b) = fileOfLines eol a ++ fileOfLines eol b := by
  simp [fileOfLines]

theorem length_le_fileOfLines (eol : Str) (heol : eol ≠ []) (ls : List Str) :
    ls.length ≤ (fileOfLines eol ls).length := by
  induction ls with
  | nil => simp
  | cons l ls ih =>
    rw [fileOfLines_cons]
    have : 0 < eol.length := List.length_pos.2 heol
    simp only [List.length_cons, List.length_append]
    omega

theorem flatMap_dsLine (eol : Str) (rs : List cacheRec) :
    rs.flatMap (dsLine eol) = fileOfLines eol (rs.map dsText) := by
  induction rs with
  | nil => rfl
  | cons r rs ih =>
    rw [List.flatMap_cons, List.map_cons, fileOfLines_cons, ih]
    simp [dsLine, dsText]

theorem appendedBytes_eq (eol : Str) (list : List cacheNode) :
    appendedBytes eol list = fileOfLines eol ((lineRecs list).map dsText) :=
  flatMap_dsLine eol (lineRecs list)

/-- Reading at the start of a line that holds no terminator byte gives the line and moves
over the line and its terminator. -/
theorem readLine_line (eol : Str) (heol : eol ≠ []) (rest : Str) :
    ∀ l : Str, (∀ ch ∈ l, ch ∉ eol) →
      readLine eol (l ++ (eol ++ rest)) = (l, l.length + eol.length) := by
  obtain ⟨e, es, rfl⟩ := List.exists_cons_of_ne_nil heol
  intro l
  induction l with
  | nil =>
    intro _
    rw [List.nil_append, List.cons_append, readLine, if_pos (by simp)]
    simp
  | cons ch l ih =>
    intro h
    have hch : ch ≠ e := by
      intro hc
      exact h ch (List.mem_cons_self _ _) (hc ▸ List.mem_cons_self _ _)
    rw [List.cons_append, readLine, if_neg (by
      intro hp
      exact hch (List.cons_prefix_cons.1 hp).1.symm),
      ih (fun x hx => h x (List.mem_cons_of_mem _ hx))]
    simp only [List.length_cons, Prod.mk.injEq, true_and]
    omega

theorem findRecInCache_ok (strHash : Str → Nat) (c : Cache) (rec : cacheRec)
    (h : rec.stb ≠ []) : ∃ b, findRecInCache strHash c rec = .ok b := by
  unfold findRecInCache
  rw [getHash_ok strHash h]
  simp only
  split
  · exact ⟨_, rfl⟩
  · split <;> exact ⟨_, rfl⟩

/-- The lookup for a live line that parses is the lookup of its record. -/
theorem checkCacheForRecord_liveRec (strHash : Str → Nat) (c : Cache) (l : Str)
    (r : cacheRec) (h : liveRec l = some r) :
    checkCacheForRecord strHash c l = findRecInCache strHash c r ∧ r.stb ≠ [] ∧
      ∃ rest, l = '1' :: rest := by
  unfold liveRec at h
  split at h
  · rename_i flag bar raw
    split at h
    · rename_i hfb
      obtain ⟨rfl, rfl⟩ := hfb
      split at h
      · rename_i r1 hconv
        split at h
        · simp at h
        · rename_i hstb
          simp only [Option.some.injEq] at h
          subst h
          refine ⟨?_, ?_, _, rfl⟩
          · simp [checkCacheForRecord, hconv]
          · intro he
            exact hstb (by simp [he])
      · simp at h
    · simp at h
  · simp at h

/-- On a line of the datastore format the lookup returns, and it returns true only for a
line that starts with `1`. -/
theorem checkCacheForRecord_storeLine (strHash : Str → Nat) (c : Cache) (eol l : Str)
    (h : StoreLine eol l) :
    ∃ b, checkCacheForRecord strHash c l = .ok b ∧ (b = true → ∃ rest, l = '1' :: rest) := by
  rcases h.2.2 with h0 | h1
  · cases l with
    | nil => simp at h0
    | cons flag rest =>
      simp only [List.head?_cons, Option.some.injEq] at h0
      subst h0
      exact ⟨false, by simp [checkCacheForRecord], by simp⟩
  · obtain ⟨r, hr⟩ := Option.isSome_iff_exists.1 h1
    obtain ⟨hcheck, hstb, hone⟩ := checkCacheForRecord_liveRec strHash c l r hr
    obtain ⟨b, hb⟩ := findRecInCache_ok strHash c r hstb
    exact ⟨b, hcheck.trans hb, fun _ => hone⟩

theorem StoreLine.ne_nil {eol l : Str} (h : StoreLine eol l) : l ≠ [] := by
  rintro rfl
  rcases h.2.2 with h0 | h1
  · simp at h0
  · simp [liveRec] at h1

theorem getline_at (eol : Str) (heol : eol ≠ []) (A l B : Str) (hl : l ≠ [])
    (hch : ∀ ch ∈ l, ch ∉ eol) :
    fstream.getline eol ⟨A ++ (l ++ (eol ++ B)), A.length, false⟩ =
      (some l, ⟨A ++ (l ++ (eol ++ B)), A.length + (l.length + eol.length), false⟩) := by
  unfold fstream.getline
  simp only [Bool.false_eq_true, if_false, List.drop_left]
  obtain ⟨ch, l1, rfl⟩ := List.exists_cons_of_ne_nil hl
  simp only [List.cons_append]
  rw [← List.cons_append, readLine_line eol heol B (ch :: l1) hch]

theorem getline_at_end (eol : Str) (A : Str) :
    fstream.getline eol ⟨A, A.length, false⟩ = (none, ⟨A, A.length, true⟩) := by
  unfold fstream.getline
  simp

theorem seekgCur_to (d : Str) (p q : Nat) (off : Int) (h : (p : Int) + off = (q : Int)) :
    (⟨d, p, false⟩ : fstream).seekgCur off = ⟨d, q, false⟩ := by
  unfold fstream.seekgCur
  simp only [Bool.false_eq_true, if_false, h]
  rw [if_neg (by omega), Int.toNat_ofNat]

theorem put_at (A B : Str) (ch x : Char) :
    (⟨A ++ (ch :: B), A.length, false⟩ : fstream).put x =
      ⟨A ++ (x :: B), A.length + 1, false⟩ := by
  unfold fstream.put
  simp only [Bool.false_eq_true, if_false]
  rw [if_pos (by simp)]
  simp [List.set_append]

/-- With a two-byte terminator the seeks around the write land on the first byte of the
line just read and return to the read position. -/
theorem flip_at (A l1 B : Str) (ch : Char) (hlen : (ch :: l1).length + 2 ≤ 2 ^ 31) :
    (((⟨A ++ (ch :: (l1 ++ B)), A.length + ((ch :: l1).length + 2), false⟩ :
      fstream).seekgCur (rewindOf (ch :: l1).length)).put '0').seekgCur
        (forwardOf (ch :: l1).length) =
    ⟨A ++ ('0' :: (l1 ++ B)), A.length + ((ch :: l1).length + 2), false⟩ := by
  have hr : rewindOf (ch :: l1).length = -((ch :: l1).length : Int) - 2 :=
    toInt32_of_range _ (by omega) (by omega)
  have hf : forwardOf (ch :: l1).length = ((ch :: l1).length : Int) + 1 :=
    toInt32_of_range _ (by omega) (by omega)
  rw [hr, hf, seekgCur_to _ _ A.length _ (by push_cast; omega), put_at,
    seekgCur_to _ _ (A.length + ((ch :: l1).length + 2)) _ (by push_cast; omega)]

theorem fileOfLines_snoc_append (eol : Str) (done : List Str) (x : Str) (rest : List Str) :
    fileOfLines eol ((done ++ [x]) ++ rest) =
      fileOfLines eol done ++ (x ++ (eol ++ fileOfLines eol rest)) := by
  simp [fileOfLines_append, fileOfLines_cons, fileOfLines]

theorem length_fileOfLines_snoc (eol : Str) (done : List Str) (x : Str) :
    (fileOfLines eol (done ++ [x])).length =
      (fileOfLines eol done).length + (x.length + eol.length) := by
  simp [fileOfLines_append, fileOfLines_cons, fileOfLines]

/-- One round of the scan loop at the start of a line of the datastore format, with a
two-byte terminator: the line is left as it is or gets the first byte `0`, and the stream
stands at the start of the next line. -/
theorem scanDataStore_step (strHash : Str → Nat) (eol : Str) (c : Cache)
    (heol : eol.length = 2) (fuel : Nat) (done : List Str) (l : Str) (rest : List Str)
    (hl : StoreLine eol l) :
    scanDataStore strHash eol c (fuel + 1)
      ⟨fileOfLines eol (done ++ l :: rest), (fileOfLines eol done).length, false⟩ =
    scanDataStore strHash eol c fuel
      ⟨fileOfLines eol ((done ++ [tombstone strHash c l]) ++ rest),
        (fileOfLines eol (done ++ [tombstone strHash c l])).length, false⟩ := by
  have hne : eol ≠ [] := by
    rintro rfl
    simp at heol
  have hdata : fileOfLines eol (done ++ l :: rest) =
      fileOfLines eol done ++ (l ++ (eol ++ fileOfLines eol rest)) := by
    rw [fileOfLines_append, fileOfLines_cons, List.append_assoc]
  obtain ⟨b, hb, hone⟩ := checkCacheForRecord_storeLine strHash c eol l hl
  rw [scanDataStore, hdata, getline_at eol hne _ l _ hl.ne_nil hl.1,
    fileOfLines_snoc_append, length_fileOfLines_snoc]
  simp only [hb]
  cases b with
  | false =>
    have ht : tombstone strHash c l = l := by simp [tombstone, hb]
    rw [ht]
  | true =>
    obtain ⟨l1, rfl⟩ := hone rfl
    have ht : tombstone strHash c ('1' :: l1) = '0' :: l1 := by simp [tombstone, hb]
    have hflip := flip_at (fileOfLines eol done) l1 (eol ++ fileOfLines eol rest) '1' hl.2.1
    rw [ht, heol, List.cons_append, hflip]
    rfl

/-- The scan of a file of lines of the datastore format, with a two-byte terminator and
enough steps: every line is left as it is or gets the first byte `0`. -/
theorem scanDataStore_lines (strHash : Str → Nat) (eol : Str) (c : Cache)
    (heol : eol.length = 2) :
    ∀ (rest done : List Str) (fuel : Nat), rest.length < fuel →
      (∀ l ∈ rest, StoreLine eol l) →
      scanDataStore strHash eol c fuel
        ⟨fileOfLines eol (done ++ rest), (fileOfLines eol done).length, false⟩ =
      .ok ⟨fileOfLines eol (done ++ rest.map (tombstone strHash c)),
        (fileOfLines eol (done ++ rest.map (tombstone strHash c))).length, true⟩ := by
  intro rest
  induction rest with
  | nil =>
    intro done fuel hfuel _
    obtain ⟨f, rfl⟩ : ∃ f, fuel = f + 1 := ⟨fuel - 1, by simp at hfuel; omega⟩
    simp only [List.append_nil, List.map_nil]
    rw [scanDataStore, getline_at_end]
  | cons l rest ih =>
    intro done fuel hfuel hlines
    obtain ⟨f, rfl⟩ : ∃ f, fuel = f + 1 := ⟨fuel - 1, by simp at hfuel; omega⟩
    rw [scanDataStore_step strHash eol c heol f done l rest
      (hlines l (List.mem_cons_self _ _)),
      ih (done ++ [tombstone strHash c l]) f (by simpa using hfuel)
        (fun x hx => hlines x (List.mem_cons_of_mem _ hx))]
    simp

theorem tombstone_cases (strHash : Str → Nat) (c : Cache) (eol l : Str)
    (hl : StoreLine eol l) :
    tombstone strHash c l = l ∨
      ∃ rest, l = '1' :: rest ∧ tombstone strHash c l = '0' :: rest := by
  obtain ⟨b, hb, hone⟩ := checkCacheForRecord_storeLine strHash c eol l hl
  cases b with
  | false => left; simp [tombstone, hb]
  | true =>
    obtain ⟨l1, rfl⟩ := hone rfl
    right
    exact ⟨l1, rfl, by simp [tombstone, hb]⟩

/-- The file that `storeCacheEntry` leaves, for a file of lines of the datastore format and
a two-byte terminator: the old lines, tombstoned where the lookup returned true, and behind
them one line `1|<rawData>` for every record of the cache line. -/
theorem storeCacheEntry_lines (strHash : Str → Nat) (eol : Str) (c : Cache) (ds : DataStore)
    (p : cacheNode) (next : List cacheNode) (lines : List Str) (i : Fin HASH_SIZE)
    (heol : eol.length = 2)
    (hidx : getHash strHash p.own.stb = .ok i)
    (hfile : ds i = some (fileOfLines eol lines))
    (hlines : ∀ l ∈ lines, StoreLine eol l) :
    storeCacheEntry strHash eol c ds (p :: next) =
      .ok (Function.update ds i (some (fileOfLines eol
        (lines.map (tombstone strHash c) ++ (lineRecs (p :: next)).map dsText)))) := by
  have hne : eol ≠ [] := by
    rintro rfl
    simp at heol
  have hscan := scanDataStore_lines strHash eol c heol lines []
    ((fileOfLines eol lines).length + 1)
    (Nat.lt_succ_of_le (length_le_fileOfLines eol hne lines)) hlines
  simp only [List.nil_append, fileOfLines, List.flatMap_nil, List.length_nil] at hscan
  simp only [storeCacheEntry, hidx, hfile, fileOfLines, hscan]
  rw [appendedBytes_eq]
  simp [fileOfLines]

/-! ## C5, C6: the flush of a cache line -/

/-- Two records whose keys differ and share a cache line, inserted into the empty cache:
the second is linked as the last `diffKey` node, and `findRecInCache` returns false for
every record with its `stb`. -/
theorem twoKeyCache_spec (strHash : Str → Nat) (a b : cacheRec)
    (ha : a.stb ≠ []) (hne : a.stb ≠ b.stb)
    (hcol : getHash strHash a.stb = getHash strHash b.stb) :
    addAllToCache strHash emptyCache [a, b] = .ok (twoKeyCache strHash a b) ∧
      (∀ r, r.stb = b.stb → findRecInCache strHash (twoKeyCache strHash a b) r = .ok false) := by
  rw [getHash_ok strHash ha] at hcol
  constructor
  · simp [addAllToCache, addToCache, getHash_ok strHash ha, ← hcol, emptyCache,
      addToCacheDiffKey, Ne.symm hne, twoKeyCache, lineIndex]
  · intro r hr
    simp [findRecInCache, hr, ← hcol, findRecInDiffKeyList, Ne.symm hne, hne, twoKeyCache,
      lineIndex]

/-- A live datastore line whose record has the logical key of the record held on the last
`diffKey` node of its cache line stays live through the flush of that line (two-byte
terminator): the file afterwards holds the old line unchanged and the lines of the two held
records. -/
theorem storeCacheEntry_last_diffKey (strHash : Str → Nat) (a b r : cacheRec) (line : Str)
    (ds : DataStore)
    (ha : a.stb ≠ []) (hne : a.stb ≠ b.stb)
    (hcol : getHash strHash a.stb = getHash strHash b.stb)
    (hline : StoreLine crlf line) (hlive : liveRec line = some r) (hkey : SameKey r b)
    (hfile : ds (lineIndex strHash a.stb) = some (fileOfLines crlf [line])) :
    storeCacheEntry strHash crlf (twoKeyCache strHash a b) ds
        ((twoKeyCache strHash a b).importCache (lineIndex strHash a.stb)) =
      .ok (Function.update ds (lineIndex strHash a.stb)
        (some (fileOfLines crlf [line, dsText a, dsText b]))) := by
  have hfind := (twoKeyCache_spec strHash a b ha hne hcol).2 r hkey.1
  have htomb : tombstone strHash (twoKeyCache strHash a b) line = line := by
    simp [tombstone, (checkCacheForRecord_liveRec strHash _ line r hlive).1, hfind]
  have hbucket : (twoKeyCache strHash a b).importCache (lineIndex strHash a.stb) =
      [⟨a, []⟩, ⟨b, []⟩] := by
    simp [twoKeyCache]
  rw [hbucket, storeCacheEntry_lines strHash crlf _ ds ⟨a, []⟩ [⟨b, []⟩] [line]
    (lineIndex strHash a.stb) rfl (getHash_ok strHash ha) hfile
    (fun l hl => by rw [List.mem_singleton.1 hl]; exact hline)]
  simp [htomb, lineRecs, cacheNode.chain]

/-- C5 (fails on the code). Under a hash that sends `stb1` and `stb2` to the same cache
line, insert `stb1|The Matrix|...|1:45` and `stb2|The Hobbit|...|2:45` into the empty
cache and flush the line against a file that holds `1|stb2|The Hobbit|WB|2014-04-02|8.00|2:30`
(two-byte terminator, so that the seeks land on the flag byte). The old line parses to the
logical key of the held Hobbit record and has flag `1`, and after `storeCacheEntry` it still
has flag `1`; the file is the old line followed by the lines of the two held records. -/
theorem storeCacheEntry_live_duplicate_kept :
    addAllToCache lengthHash emptyCache [matrix145, hobbit245] =
      .ok (twoKeyCache lengthHash matrix145 hobbit245) ∧
    Held (twoKeyCache lengthHash matrix145 hobbit245) hobbit245 ∧
    (∃ r, liveRec live230 = some r ∧ SameKey r hobbit245) ∧
    fileAfter (storeCacheEntry lengthHash crlf (twoKeyCache lengthHash matrix145 hobbit245)
        (storeWith crlf (lineIndex lengthHash matrix145.stb) [live230])
        ((twoKeyCache lengthHash matrix145 hobbit245).importCache
          (lineIndex lengthHash matrix145.stb)))
      (lineIndex lengthHash matrix145.stb) =
      .ok (some (fileOfLines crlf [live230, live145, live245])) := by
  refine ⟨(twoKeyCache_spec lengthHash matrix145 hobbit245 (by decide) (by decide)
      (by decide)).1,
    ⟨lineIndex lengthHash matrix145.stb, ⟨hobbit245, []⟩, by decide, by decide⟩,
    ⟨_, rfl, by decide⟩, by decide⟩

theorem forall₂_tombstone (strHash : Str → Nat) (c : Cache) (eol : Str) :
    ∀ lines : List Str, (∀ l ∈ lines, StoreLine eol l) →
      List.Forall₂ (fun old new => new = old ∨ ∃ rest, old = '1' :: rest ∧ new = '0' :: rest)
        lines (lines.map (tombstone strHash c)) := by
  intro lines
  induction lines with
  | nil => intro _; exact List.Forall₂.nil
  | cons l ls ih =>
    intro h
    refine List.Forall₂.cons ?_ (ih (fun x hx => h x (List.mem_cons_of_mem _ hx)))
    rcases tombstone_cases strHash c eol l (h l (List.mem_cons_self _ _)) with h1 | h1
    · exact Or.inl h1
    · exact Or.inr h1

/-- C6 as amended. Let the stream use a two-byte line terminator and let the file of the
cache line hold lines of the datastore format (no terminator byte inside a line, tombstoned
or live and parsing with a non-empty `stb`). Then `storeCacheEntry` on a non-empty cache
line returns, and the file afterwards consists of the old lines in their order, each one
unchanged or with its first byte changed from `1` to `0`, followed by one line
`1|<rawData>` for every record of the cache line, `diffKey` list first to last and within a
node `sameKey` list first to last. The number of lines grows by the number of records. -/
theorem storeCacheEntry_file_layout (strHash : Str → Nat) (eol : Str) (c : Cache)
    (ds : DataStore) (p : cacheNode) (next : List cacheNode) (lines : List Str)
    (i : Fin HASH_SIZE)
    (heol : eol.length = 2)
    (hidx : getHash strHash p.own.stb = .ok i)
    (hfile : ds i = some (fileOfLines eol lines))
    (hlines : ∀ l ∈ lines, StoreLine eol l) :
    storeCacheEntry strHash eol c ds (p :: next) =
      .ok (Function.update ds i (some (fileOfLines eol
        (lines.map (tombstone strHash c) ++ (lineRecs (p :: next)).map dsText)))) ∧
    List.Forall₂ (fun old new => new = old ∨ ∃ rest, old = '1' :: rest ∧ new = '0' :: rest)
      lines (lines.map (tombstone strHash c)) ∧
    (lines.map (tombstone strHash c) ++ (lineRecs (p :: next)).map dsText).length =
      lines.length + (lineRecs (p :: next)).length :=
  ⟨storeCacheEntry_lines strHash eol c ds p next lines i heol hidx hfile hlines,
    forall₂_tombstone strHash c eol lines hlines, by simp⟩

/-- Witness for C6 as amended: scenario B (the file holds the `1:30` line, the cache the
`1:45` record; afterwards the file is the `1:30` line with flag `0` and the `1:45` line). -/
theorem storeCacheEntry_file_layout_witness :
    crlf.length = 2 ∧
    getHash lengthHash matrix145.stb = .ok (lineIndex lengthHash matrix145.stb) ∧
    (∀ l ∈ [live130], StoreLine crlf l) ∧
    [live130].map (tombstone lengthHash (oneKeyCache lengthHash matrix145)) ++
      (lineRecs [⟨matrix145, []⟩]).map dsText = [dead130, live145] ∧
    (storeCacheEntry lengthHash crlf (oneKeyCache lengthHash matrix145)
        (storeWith crlf (lineIndex lengthHash matrix145.stb) [live130]) [⟨matrix145, []⟩] =
      .ok (Function.update (storeWith crlf (lineIndex lengthHash matrix145.stb) [live130])
        (lineIndex lengthHash matrix145.stb) (some (fileOfLines crlf
          ([live130].map (tombstone lengthHash (oneKeyCache lengthHash matrix145)) ++
            (lineRecs [⟨matrix145, []⟩]).map dsText)))) ∧
      List.Forall₂
        (fun old new => new = old ∨ ∃ rest, old = '1' :: rest ∧ new = '0' :: rest)
        [live130] ([live130].map (tombstone lengthHash (oneKeyCache lengthHash matrix145))) ∧
      ([live130].map (tombstone lengthHash (oneKeyCache lengthHash matrix145)) ++
        (lineRecs [⟨matrix145, []⟩]).map dsText).length =
        [live130].length + (lineRecs [⟨matrix145, []⟩]).length) :=
  ⟨by decide, by decide, by decide, by decide,
    storeCacheEntry_file_layout lengthHash crlf (oneKeyCache lengthHash matrix145)
      (storeWith crlf (lineIndex lengthHash matrix145.stb) [live130]) ⟨matrix145, []⟩ []
      [live130] (lineIndex lengthHash matrix145.stb) (by decide) (by decide)
      (by simp [storeWith]) (by decide)⟩

/-- Scenario A: the `1:30` record flushed against an empty file (two-byte terminator) gives
exactly the line `1|stb1|The Matrix|WB|2014-04-01|4.00|1:30`. -/
theorem storeCacheEntry_scenario_A :
    fileAfter (storeCacheEntry lengthHash crlf (oneKeyCache lengthHash matrix130) emptyStore
        [⟨matrix130, []⟩]) (lineIndex lengthHash matrix130.stb) =
      .ok (some (fileOfLines crlf [live130])) := by
  decide

/-- C6 (fails on the code as stated). (a) With a one-byte terminator, a file that holds the
Unbreakable line and the `1:30` line, and the `1:45` record in the cache, the backward seek
lands on the terminator of the first line: afterwards the two old lines are one line
(`...2:05` `0` `1|stb1|The Matrix...1:30`), so the file is not the two old lines, flipped or
not, followed by the new line. (b) With a live line that does not parse
(`1|stb3|Unbreakable`) `storeCacheEntry` ends in `exit(0)` and appends nothing. -/
theorem storeCacheEntry_layout_broken :
    fileAfter (storeCacheEntry lengthHash lf (oneKeyCache lengthHash matrix145)
        (storeWith lf (lineIndex lengthHash matrix145.stb) [live205, live130])
        [⟨matrix145, []⟩]) (lineIndex lengthHash matrix145.stb) =
      .ok (some (fileOfLines lf [live205 ++ '0' :: live130, live145])) ∧
    (∀ x ∈ [live205, '0' :: live205.tail], ∀ y ∈ [live130, dead130],
      fileAfter (storeCacheEntry lengthHash lf (oneKeyCache lengthHash matrix145)
        (storeWith lf (lineIndex lengthHash matrix145.stb) [live205, live130])
        [⟨matrix145, []⟩]) (lineIndex lengthHash matrix145.stb) ≠
      .ok (some (fileOfLines lf [x, y, live145]))) ∧
    fileAfter (storeCacheEntry lengthHash crlf (oneKeyCache lengthHash matrix145)
        (storeWith crlf (lineIndex lengthHash matrix145.stb) ["1|stb3|Unbreakable".toList])
        [⟨matrix145, []⟩]) (lineIndex lengthHash matrix145.stb) =
      .error (.exit 0) := by
  refine ⟨by decide, by decide, by decide⟩

theorem pipeFields_append_pipe (t : Str) :
    ∀ s : Str, '|' ∉ s → pipeFields (s ++ '|' :: t) = s :: pipeFields t := by
  intro s
  induction s with
  | nil => intro _; simp [pipeFields]
  | cons ch s ih =>
    intro h
    have hch : ch ≠ '|' := fun hc => h (hc ▸ List.mem_cons_self _ _)
    have hs : '|' ∉ s := fun hc => h (List.mem_cons_of_mem _ hc)
    rw [List.cons_append, pipeFields, if_neg hch, ih hs]

theorem liveRec_keyRec (k : Nat) : liveRec (dsText (keyRec k)) = some (keyRec k) := by
  have hraw : cString (keyRec k).rawData = (keyRec k).rawData := by
    unfold cString
    rw [List.takeWhile_eq_self_iff]
    intro x hx
    simp only [keyRec, List.mem_append, List.mem_replicate] at hx
    rcases hx with ⟨_, rfl⟩ | hx
    · decide
    · revert x
      decide
  have hconv : convertToRec (keyRec k).rawData = .ok (some (keyRec k)) := by
    have := convertToRec_of_fields (keyRec k).rawData (List.replicate (k + 1) 'a')
      ['t'] ['p'] ['d'] [] (by
        show pipeFields (List.replicate (k + 1) 'a' ++ '|' :: ['t', '|', 'p', '|', 'd']) = _
        rw [pipeFields_append_pipe _ _ (by
          intro h
          exact absurd (List.eq_of_mem_replicate h) (by decide))]
        rfl) (Or.inl (by decide))
    exact this
  simp only [liveRec, dsText, hraw, hconv, and_self, if_true]
  simp [keyRec]

theorem storeLine_keyRec (k : Nat) (hk : k < 101) : StoreLine crlf (dsText (keyRec k)) := by
  refine ⟨?_, ?_, Or.inr (by rw [liveRec_keyRec]; rfl)⟩
  · intro x hx
    simp only [dsText, keyRec] at hx
    rw [List.mem_cons, List.mem_cons, List.mem_append, List.mem_replicate] at hx
    rcases hx with rfl | rfl | ⟨_, rfl⟩ | hx
    · decide
    · decide
    · decide
    · revert x
      decide
  · simp only [dsText, keyRec, List.length_cons, List.length_append, List.length_replicate,
      List.length_nil]
    omega

/-- For every hash function the flush keeps a superseded live line: there are two records
such that, after inserting both into the empty cache, a file that holds the line of the
second one (an earlier import of the same logical record) is flushed to that line, still
with flag `1`, followed by the lines of the two records. -/
theorem storeCacheEntry_keeps_duplicate (strHash : Str → Nat) :
    ∃ j k : Fin 101,
      addAllToCache strHash emptyCache [keyRec j, keyRec k] =
        .ok (twoKeyCache strHash (keyRec j) (keyRec k)) ∧
      liveRec (dsText (keyRec k)) = some (keyRec k) ∧
      ∀ ds : DataStore,
        ds (lineIndex strHash (keyRec j).stb) = some (fileOfLines crlf [dsText (keyRec k)]) →
        storeCacheEntry strHash crlf (twoKeyCache strHash (keyRec j) (keyRec k)) ds
            ((twoKeyCache strHash (keyRec j) (keyRec k)).importCache
              (lineIndex strHash (keyRec j).stb)) =
          .ok (Function.update ds (lineIndex strHash (keyRec j).stb)
            (some (fileOfLines crlf
              [dsText (keyRec k), dsText (keyRec j), dsText (keyRec k)]))) := by
  obtain ⟨j, k, hne, hcol⟩ := exists_collision strHash
  have hkeys : (keyRec j).stb ≠ (keyRec k).stb := by
    intro h
    have hlen := congrArg List.length h
    simp only [keyRec, List.length_replicate, add_left_inj] at hlen
    exact hne (Fin.ext hlen)
  have hj : (keyRec j).stb ≠ [] := by simp [keyRec]
  exact ⟨j, k, (twoKeyCache_spec strHash _ _ hj hkeys hcol).1, liveRec_keyRec k,
    fun ds hds => storeCacheEntry_last_diffKey strHash (keyRec j) (keyRec k) (keyRec k) _ ds
      hj hkeys hcol (storeLine_keyRec k k.isLt) (liveRec_keyRec k) ⟨rfl, rfl, rfl⟩ hds⟩

/-! ## Supplements -/

/-- Inserting a record with non-empty `stb` into the empty cache gives `oneKeyCache`. -/
theorem oneKeyCache_spec (strHash : Str → Nat) (a : cacheRec) (ha : a.stb ≠ []) :
    addToCache strHash emptyCache a = .ok (oneKeyCache strHash a) := by
  simp [addToCache, getHash_ok strHash ha, emptyCache, oneKeyCache, lineIndex]

theorem findRecInCache_ne_outOfFuel (strHash : Str → Nat) (c : Cache) (rec : cacheRec) :
    findRecInCache strHash c rec ≠ .error .outOfFuel := by
  unfold findRecInCache getHash
  split
  · rename_i h heq
    split at heq
    · simp only [Except.error.injEq] at heq
      subst heq
      simp
    · simp at heq
  · split
    · simp
    · split <;> simp

theorem convertToRec_ne_outOfFuel (input : Str) : convertToRec input ≠ .error .outOfFuel := by
  unfold convertToRec
  split
  · simp
  · repeat' split
    all_goals simp

theorem checkCacheForRecord_ne_outOfFuel (strHash : Str → Nat) (c : Cache) (input : Str) :
    checkCacheForRecord strHash c input ≠ .error .outOfFuel := by
  unfold checkCacheForRecord
  split
  · simp
  · split
    · simp
    · split
      · simp
      · split
        · rename_i h heq
          intro hc
          simp only [Except.error.injEq] at hc
          subst hc
          exact convertToRec_ne_outOfFuel _ heq
        · simp
        · exact findRecInCache_ne_outOfFuel strHash c _

/-- A line read takes at least one byte and at most the unread bytes, and the line is not
longer than what was taken. -/
theorem readLine_bounds (eol : Str) (heol : eol ≠ []) :
    ∀ unread : Str, unread ≠ [] →
      0 < (readLine eol unread).2 ∧ (readLine eol unread).2 ≤ unread.length ∧
        (readLine eol unread).1.length ≤ (readLine eol unread).2 := by
  intro unread
  induction unread with
  | nil => intro h; exact absurd rfl h
  | cons ch cs ih =>
    intro _
    unfold readLine
    split
    · rename_i hp
      refine ⟨List.length_pos.2 heol, hp.length_le, by simp⟩
    · by_cases hcs : cs = []
      · subst hcs
        simp [readLine]
      · obtain ⟨h1, h2, h3⟩ := ih hcs
        simp only [List.length_cons]
        omega

/-- The seeks and the write of one round of the scan, on a good stream inside the file:
either the backward seek fails and the stream is failed afterwards, or the file keeps its
length and the stream is back at the read position. -/
theorem flip_state (data : Str) (pos len : Nat) (hpos : pos ≤ data.length)
    (hlen : len + 2 ≤ 2 ^ 31) :
    (((⟨data, pos, false⟩ : fstream).seekgCur (rewindOf len)).put '0').seekgCur
        (forwardOf len) = ⟨data, pos, true⟩ ∨
    ∃ d, d.length = data.length ∧
      (((⟨data, pos, false⟩ : fstream).seekgCur (rewindOf len)).put '0').seekgCur
        (forwardOf len) = ⟨d, pos, false⟩ := by
  have hr : rewindOf len = -(len : Int) - 2 := toInt32_of_range _ (by omega) (by omega)
  have hf : forwardOf len = (len : Int) + 1 := toInt32_of_range _ (by omega) (by omega)
  rw [hr, hf]
  by_cases hback : (pos : Int) + (-(len : Int) - 2) < 0
  · left
    simp [fstream.seekgCur, fstream.put, hback]
  · right
    obtain ⟨q, hq⟩ : ∃ q : Nat, (pos : Int) + (-(len : Int) - 2) = (q : Int) :=
      ⟨((pos : Int) + (-(len : Int) - 2)).toNat, by omega⟩
    have hqlt : q < data.length := by omega
    refine ⟨data.set q '0', by simp, ?_⟩
    rw [seekgCur_to data pos q _ hq]
    have hput : (⟨data, q, false⟩ : fstream).put '0' = ⟨data.set q '0', q + 1, false⟩ := by
      simp [fstream.put, hqlt]
    rw [hput, seekgCur_to _ (q + 1) pos _ (by push_cast; omega)]

/-- The step budget `data.length + 1` of `storeCacheEntry` is never used up on a file
shorter than `2 ^ 31 - 2` bytes: the scan loop of the model ends as the loop of the code
does. -/
theorem scanDataStore_ne_outOfFuel (strHash : Str → Nat) (eol : Str) (c : Cache)
    (heol : eol ≠ []) :
    ∀ (fuel : Nat) (s : fstream), s.data.length + 2 ≤ 2 ^ 31 →
      ((s.fail = true ∧ 0 < fuel) ∨
        (s.fail = false ∧ s.pos ≤ s.data.length ∧ s.data.length - s.pos < fuel)) →
      scanDataStore strHash eol c fuel s ≠ .error .outOfFuel := by
  intro fuel
  induction fuel with
  | zero =>
    intro s _ h
    rcases h with ⟨_, h⟩ | ⟨_, _, h⟩ <;> omega
  | succ fuel ih =>
    intro s hsize h
    obtain ⟨data, pos, fail⟩ := s
    simp only at hsize h
    unfold scanDataStore
    cases fail with
    | true => simp [fstream.getline]
    | false =>
      have hpos : pos ≤ data.length := by
        rcases h with ⟨h, _⟩ | ⟨_, h, _⟩
        · simp at h
        · exact h
      have hfuel : data.length - pos < fuel + 1 := by
        rcases h with ⟨h, _⟩ | ⟨_, _, h⟩
        · simp at h
        · exact h
      cases hdrop : data.drop pos with
      | nil => simp [fstream.getline, hdrop]
      | cons ch cs =>
        have hb := readLine_bounds eol heol (ch :: cs) (by simp)
        have hrest : (ch :: cs).length = data.length - pos := by
          rw [← hdrop, List.length_drop]
        simp only [fstream.getline, Bool.false_eq_true, if_false, hdrop]
        generalize readLine eol (ch :: cs) = r at hb
        obtain ⟨line, used⟩ := r
        simp only at hb ⊢
        cases hcheck : checkCacheForRecord strHash c line with
        | error e =>
          simp only
          intro hc
          simp only [Except.error.injEq] at hc
          subst hc
          exact checkCacheForRecord_ne_outOfFuel strHash c line hcheck
        | ok b =>
          cases b with
          | false =>
            simp only
            exact ih _ hsize (Or.inr ⟨rfl, by simp only; omega, by simp only; omega⟩)
          | true =>
            simp only
            rcases flip_state data (pos + used) line.length (by omega) (by omega) with
              hstate | ⟨d, hd, hstate⟩
            · rw [hstate]
              exact ih _ hsize (Or.inl ⟨rfl, by omega⟩)
            · rw [hstate]
              exact ih _ (by simp only [hd]; exact hsize)
                (Or.inr ⟨rfl, by simp only [hd]; omega, by simp only [hd]; omega⟩)

/-- `storeCacheEntry` never stops for lack of steps on datastore files shorter than
`2 ^ 31 - 2` bytes: every run of the model is a run of the code. -/
theorem storeCacheEntry_ne_outOfFuel (strHash : Str → Nat) (eol : Str) (c : Cache)
    (ds : DataStore) (list : List cacheNode) (heol : eol ≠ [])
    (hsize : ∀ i data, ds i = some data → data.length + 2 ≤ 2 ^ 31) :
    storeCacheEntry strHash eol c ds list ≠ .error .outOfFuel := by
  unfold storeCacheEntry
  split
  · simp
  · split
    · rename_i h heq
      intro hc
      simp only [Except.error.injEq] at hc
      subst hc
      unfold getHash at heq
      split at heq <;> simp at heq
    · split
      · simp
      · rename_i data hdata
        split
        · rename_i h heq
          intro hc
          simp only [Except.error.injEq] at hc
          subst hc
          exact scanDataStore_ne_outOfFuel strHash eol c heol (data.length + 1)
            ⟨data, 0, false⟩ (hsize _ data hdata)
            (Or.inr ⟨rfl, Nat.zero_le _, by simp⟩) heq
        · simp

/-- For a line of `2 ^ 31 - 1` bytes the `int` offset of the backward seek has wrapped
around: it is positive, and the seek moves forward. -/
theorem rewindOf_wraps : rewindOf (2 ^ 31 - 1) = 2 ^ 31 - 1 := by
  decide

/-! ## C13, C14, C15: invariants of the cache -/

theorem Reachable.withClear {strHash : Str → Nat} {c : Cache} (hc : Reachable strHash c) :
    ReachableWithClear strHash c := by
  induction hc with
  | empty => exact ReachableWithClear.empty
  | add rec _ hadd ih => exact ReachableWithClear.add rec ih hadd

theorem ReachableWithClear.reachable {strHash : Str → Nat} {c : Cache}
    (hc : ReachableWithClear strHash c) : Reachable strHash c := by
  induction hc with
  | empty => exact Reachable.empty
  | add rec _ hadd ih => exact Reachable.add rec ih hadd
  | clear _ _ => exact Reachable.empty

/-- Three records `a`, `b`, `b2` inserted into the empty cache, where `a` and `b` have
different keys that share a cache line and `b2` has the key of `b`: `b2` is linked as a
third `diffKey` node. -/
theorem addAllToCache_three (strHash : Str → Nat) (a b b2 : cacheRec)
    (ha : a.stb ≠ []) (hne : a.stb ≠ b.stb) (hb2 : b2.stb = b.stb)
    (hcol : getHash strHash a.stb = getHash strHash b.stb) :
    addAllToCache strHash emptyCache [a, b, b2] =
      .ok ⟨Function.update (fun _ => []) (lineIndex strHash a.stb)
        [⟨a, []⟩, ⟨b, []⟩, ⟨b2, []⟩], 3⟩ := by
  rw [getHash_ok strHash ha] at hcol
  simp [addAllToCache, addToCache, getHash_ok strHash ha, ← hcol, emptyCache,
    addToCacheDiffKey, Ne.symm hne, hne, hb2, lineIndex]

/-- C13 (fails on the code). For every hash function there are three records, the third
with the `stb` of the second and another title and date, such that after inserting them into
the empty cache the cache line of the first holds three `diffKey` nodes, two of them with
the same `stb`; `numCachedRecs` is 3. -/
theorem addToCacheDiffKey_second_node (strHash : Str → Nat) :
    ∃ j k : Fin 101, ∃ c,
      addAllToCache strHash emptyCache [keyRec j, keyRec k, keyRec2 k] = .ok c ∧
      ReachableWithClear strHash c ∧
      c.importCache (lineIndex strHash (keyRec j).stb) =
        [⟨keyRec j, []⟩, ⟨keyRec k, []⟩, ⟨keyRec2 k, []⟩] ∧
      (keyRec2 k).stb = (keyRec k).stb ∧
      ¬ DistinctStb (c.importCache (lineIndex strHash (keyRec j).stb)) := by
  obtain ⟨j, k, hne, hcol⟩ := exists_collision strHash
  have hkeys : (keyRec j).stb ≠ (keyRec k).stb := by
    intro h
    have hlen := congrArg List.length h
    simp only [keyRec, List.length_replicate, add_left_inj] at hlen
    exact hne (Fin.ext hlen)
  have hadd := addAllToCache_three strHash (keyRec j) (keyRec k) (keyRec2 k)
    (by simp [keyRec]) hkeys rfl hcol
  refine ⟨j, k, _, hadd, (Reachable.addAll _ Reachable.empty hadd).withClear, by simp, rfl, ?_⟩
  simp [DistinctStb, keyRec, keyRec2]

/-- In a state reached by insertions every record held in cache line `i` has a `stb` that
`getHash` sends to `i`, and the `stb` of the `diffKey` node whose list it is on. -/
theorem Reachable.line_hash {strHash : Str → Nat} {c : Cache} (hc : Reachable strHash c) :
    ∀ i, ∀ node ∈ c.importCache i, ∀ x ∈ node.chain,
      getHash strHash x.stb = .ok i ∧ x.stb = node.own.stb := by
  induction hc with
  | empty => intro i node hnode; simp [emptyCache] at hnode
  | add rec _ hadd ih =>
    refine addToCache_nodes strHash
      (fun i node => ∀ x ∈ node.chain, getHash strHash x.stb = .ok i ∧ x.stb = node.own.stb)
      _ _ rec hadd ih ?_ ?_
    · intro i hi x hx
      simp only [cacheNode.chain, List.mem_singleton] at hx
      rw [hx]
      exact ⟨hi, rfl⟩
    · intro i node n hi hq hstb x hx
      rw [addToCacheSameKey_own_stb]
      have hown := hq node.own (List.mem_cons_self _ _)
      exact addToCacheSameKey_all
        (fun y => getHash strHash y.stb = .ok i ∧ y.stb = node.own.stb) rec
        (fun _ hz => hz) ⟨hi, hstb.symm⟩ n node.sameKey node.own ⟨hown.1, rfl⟩
        (fun z hz => hq z (List.mem_cons_of_mem _ hz)) x hx

/-- C15. For a non-empty key `getHash` returns an index below `HASH_SIZE` that is a function
of the key alone (`strHash key % HASH_SIZE`); and in every state reached from the empty cache
by insertions every record held in cache line `i` has `getHash(stb) = i` and the `stb` of the
`diffKey` node that owns its `sameKey` list. -/
theorem getHash_routes_records (strHash : Str → Nat) (c : Cache) (key : Str)
    (hc : Reachable strHash c) (hkey : key ≠ []) :
    (∃ i : Fin HASH_SIZE, getHash strHash key = .ok i ∧ i.val < HASH_SIZE ∧
      i.val = strHash key % HASH_SIZE) ∧
    (∀ key2 : Str, key2 = key → getHash strHash key2 = getHash strHash key) ∧
    (∀ i, ∀ node ∈ c.importCache i, ∀ x ∈ node.chain,
      getHash strHash x.stb = .ok i ∧ x.stb = node.own.stb) :=
  ⟨⟨_, getHash_ok strHash hkey, Nat.mod_lt _ (by decide), rfl⟩,
    fun _ h => by rw [h], hc.line_hash⟩

/-- Witness for C15: the cache after inserting the `1:45` and the Hobbit record under a hash
that sends both keys to cache line 4. -/
theorem getHash_routes_records_witness :
    Reachable lengthHash (twoKeyCache lengthHash matrix145 hobbit245) ∧
    matrix145.stb ≠ [] ∧
    (∃ i : Fin HASH_SIZE, getHash lengthHash matrix145.stb = .ok i ∧ i.val < HASH_SIZE ∧
      i.val = lengthHash matrix145.stb % HASH_SIZE) ∧
    (∀ key2 : Str, key2 = matrix145.stb →
      getHash lengthHash key2 = getHash lengthHash matrix145.stb) ∧
    (∀ i, ∀ node ∈ (twoKeyCache lengthHash matrix145 hobbit245).importCache i,
      ∀ x ∈ node.chain, getHash lengthHash x.stb = .ok i ∧ x.stb = node.own.stb) :=
  have hreach : Reachable lengthHash (twoKeyCache lengthHash matrix145 hobbit245) :=
    Reachable.addAll _ Reachable.empty
      (twoKeyCache_spec lengthHash matrix145 hobbit245 (by decide) (by decide) (by decide)).1
  ⟨hreach, by decide,
    getHash_routes_records lengthHash _ matrix145.stb hreach (by decide)⟩

theorem addToCacheSameKey_length (rec : cacheRec) (n : Nat) :
    ∀ (next : List cacheRec) (p : cacheRec),
      (addToCacheSameKey p next rec n).1.chain.length + n =
        (next.length + 1) + (addToCacheSameKey p next rec n).2 := by
  intro next
  induction next with
  | nil => intro p; simp [addToCacheSameKey, cacheNode.chain]; omega
  | cons q rest ih =>
    intro p
    unfold addToCacheSameKey
    split
    · simp [cacheNode.chain]
    · have := ih q
      simp only [cacheNode.chain, List.length_cons] at this ⊢
      omega

theorem lineRecs_cons (p : cacheNode) (line : List cacheNode) :
    lineRecs (p :: line) = p.chain ++ lineRecs line := by
  simp [lineRecs]

theorem addToCacheDiffKey_length (rec : cacheRec) (n : Nat) :
    ∀ (next : List cacheNode) (p : cacheNode),
      (lineRecs (addToCacheDiffKey p next rec n).1).length + n =
        (lineRecs (p :: next)).length + (addToCacheDiffKey p next rec n).2 := by
  intro next
  induction next with
  | nil =>
    intro p
    simp [addToCacheDiffKey, lineRecs_cons, lineRecs, cacheNode.chain]
    omega
  | cons q rest ih =>
    intro p
    unfold addToCacheDiffKey
    split
    · have := addToCacheSameKey_length rec n p.sameKey p.own
      simp only [lineRecs_cons, List.length_append, cacheNode.chain, List.length_cons]
        at this ⊢
      omega
    · have := ih q
      simp only [lineRecs_cons, List.length_append] at this ⊢
      omega

/-- Replacing one cache line changes the number of nodes by the change of that line. -/
theorem nodeCount_update (c : Cache) (i : Fin HASH_SIZE) (line : List cacheNode) (m : Nat) :
    nodeCount ⟨Function.update c.importCache i line, m⟩ + (lineRecs (c.importCache i)).length =
      nodeCount c + (lineRecs line).length := by
  obtain ⟨f, k⟩ := c
  unfold nodeCount
  rw [← Fin.sum_univ_def, ← Fin.sum_univ_def]
  simp only
  rw [← Finset.add_sum_erase Finset.univ _ (Finset.mem_univ i),
    ← Finset.add_sum_erase Finset.univ (fun j => (lineRecs (f j)).length) (Finset.mem_univ i)]
  have hrest : ∑ x ∈ Finset.univ.erase i, (lineRecs (Function.update f i line x)).length =
      ∑ x ∈ Finset.univ.erase i, (lineRecs (f x)).length := by
    refine Finset.sum_congr rfl (fun x hx => ?_)
    rw [Function.update_noteq (Finset.ne_of_mem_erase hx)]
  rw [hrest, Function.update_same]
  omega

/-- Every `addToCache` call changes `numCachedRecs` by the number of nodes it links. -/
theorem addToCache_nodeCount (strHash : Str → Nat) (c c1 : Cache) (rec : cacheRec)
    (hadd : addToCache strHash c rec = .ok c1) :
    nodeCount c1 + c.numCachedRecs = nodeCount c + c1.numCachedRecs := by
  unfold addToCache at hadd
  split at hadd
  · exact absurd hadd (by simp)
  · rename_i index _
    split at hadd
    · rename_i hline
      simp only [Except.ok.injEq] at hadd
      subst hadd
      have := nodeCount_update c index [⟨rec, []⟩] (c.numCachedRecs + 1)
      rw [hline] at this
      simp only [lineRecs, cacheNode.chain, List.flatMap_cons, List.flatMap_nil,
        List.append_nil, List.length_cons, List.length_nil] at this
      simp only
      omega
    · rename_i p next hline
      split at hadd
      · simp only [Except.ok.injEq] at hadd
        subst hadd
        have h1 := nodeCount_update c index
          ((addToCacheSameKey p.own p.sameKey rec c.numCachedRecs).1 :: next)
          (addToCacheSameKey p.own p.sameKey rec c.numCachedRecs).2
        have h2 := addToCacheSameKey_length rec c.numCachedRecs p.sameKey p.own
        rw [hline] at h1
        simp only [lineRecs_cons, List.length_append, cacheNode.chain, List.length_cons]
          at h1 h2
        simp only
        omega
      · simp only [Except.ok.injEq] at hadd
        subst hadd
        have h1 := nodeCount_update c index
          (addToCacheDiffKey p next rec c.numCachedRecs).1
          (addToCacheDiffKey p next rec c.numCachedRecs).2
        have h2 := addToCacheDiffKey_length rec c.numCachedRecs next p
        rw [hline] at h1
        simp only
        omega

theorem addToCacheSameKey_step (rec : cacheRec) (n : Nat) :
    ∀ (next : List cacheRec) (p : cacheRec),
      (addToCacheSameKey p next rec n).2 = n ∨ (addToCacheSameKey p next rec n).2 = n + 1 := by
  intro next
  induction next with
  | nil => intro p; right; rfl
  | cons q rest ih =>
    intro p
    unfold addToCacheSameKey
    split
    · left; rfl
    · exact ih q

theorem addToCacheDiffKey_step (rec : cacheRec) (n : Nat) :
    ∀ (next : List cacheNode) (p : cacheNode),
      (addToCacheDiffKey p next rec n).2 = n ∨ (addToCacheDiffKey p next rec n).2 = n + 1 := by
  intro next
  induction next with
  | nil => intro p; right; rfl
  | cons q rest ih =>
    intro p
    unfold addToCacheDiffKey
    split
    · exact addToCacheSameKey_step rec n p.sameKey p.own
    · exact ih q

/-- An `addToCache` call leaves `numCachedRecs` as it is or adds one. -/
theorem addToCache_step (strHash : Str → Nat) (c c1 : Cache) (rec : cacheRec)
    (hadd : addToCache strHash c rec = .ok c1) :
    c1.numCachedRecs = c.numCachedRecs ∨ c1.numCachedRecs = c.numCachedRecs + 1 := by
  unfold addToCache at hadd
  split at hadd
  · exact absurd hadd (by simp)
  · split at hadd
    · simp only [Except.ok.injEq] at hadd
      subst hadd
      right; rfl
    · rename_i p next _
      split at hadd
      · simp only [Except.ok.injEq] at hadd
        subst hadd
        exact addToCacheSameKey_step rec _ p.sameKey p.own
      · simp only [Except.ok.injEq] at hadd
        subst hadd
        exact addToCacheDiffKey_step rec _ next p

theorem nodeCount_emptyCache : nodeCount emptyCache = 0 := by
  simp [nodeCount, emptyCache, lineRecs]

/-- C14. In every state reached from the empty cache by `addToCache` and `clearCache` calls
`numCachedRecs` is the number of record nodes linked in the cache; every `addToCache` call
changes the number of nodes and `numCachedRecs` by the same amount, none (an overwrite) or
one (a linked node); `clearCache` sets both to 0. -/
theorem numCachedRecs_eq_nodeCount (strHash : Str → Nat) (c : Cache)
    (hc : ReachableWithClear strHash c) :
    c.numCachedRecs = nodeCount c ∧
    (∀ rec c1, addToCache strHash c rec = .ok c1 →
      nodeCount c1 + c.numCachedRecs = nodeCount c + c1.numCachedRecs ∧
      (c1.numCachedRecs = c.numCachedRecs ∨ c1.numCachedRecs = c.numCachedRecs + 1)) ∧
    (clearCache c).numCachedRecs = 0 ∧ nodeCount (clearCache c) = 0 := by
  refine ⟨?_, fun rec c1 hadd =>
    ⟨addToCache_nodeCount strHash c c1 rec hadd, addToCache_step strHash c c1 rec hadd⟩,
    rfl, nodeCount_emptyCache⟩
  induction hc with
  | empty => exact nodeCount_emptyCache.symm
  | add rec _ hadd ih =>
    have := addToCache_nodeCount strHash _ _ rec hadd
    omega
  | clear _ _ => exact nodeCount_emptyCache.symm

/-- Witness for C14: the `1:30` record and then the `1:45` record with the same logical key
inserted into the empty cache; two nodes are linked and `numCachedRecs` is 2. -/
theorem numCachedRecs_eq_nodeCount_witness :
    ReachableWithClear lengthHash
      ⟨Function.update (Function.update (fun _ => []) ⟨4, by decide⟩ [⟨matrix130, []⟩])
        ⟨4, by decide⟩ [⟨matrix130, [matrix145]⟩], 2⟩ ∧
    (2 : Nat) = nodeCount
      ⟨Function.update (Function.update (fun _ => []) ⟨4, by decide⟩ [⟨matrix130, []⟩])
        ⟨4, by decide⟩ [⟨matrix130, [matrix145]⟩], 2⟩ :=
  have hadd : addAllToCache lengthHash emptyCache [matrix130, matrix145] = .ok
      ⟨Function.update (Function.update (fun _ => []) ⟨4, by decide⟩ [⟨matrix130, []⟩])
        ⟨4, by decide⟩ [⟨matrix130, [matrix145]⟩], 2⟩ := rfl
  have hreach := (Reachable.addAll _ Reachable.empty hadd).withClear
  ⟨hreach, (numCachedRecs_eq_nodeCount lengthHash _ hreach).1⟩

/-! ## C11: the flush threshold of the staging loop -/

/-- One round of the staging loop on a line that parses and is inserted. -/
theorem importLines_round (strHash : Str → Nat) (eol : Str) (st : Cache × DataStore)
    (line : Str) (rest : List Str) (rec : cacheRec) (c1 : Cache)
    (hconv : convertToRec line = .ok (some rec))
    (hadd : addToCache strHash st.1 rec = .ok c1) :
    importLines strHash eol true (line :: rest) st =
      if c1.numCachedRecs ≥ MAX_CACHED_RECS then
        match addCacheToDataStore strHash eol c1 st.2 with
        | .error h => .error h
        | .ok ds1 => importLines strHash eol true rest (clearCache c1, ds1)
      else importLines strHash eol true rest (c1, st.2) := by
  rw [importLines]
  simp only [Bool.not_true, Bool.false_eq_true, if_false, hconv, hadd]

/-- When the staging loop returns, fewer than `MAX_CACHED_RECS` records are staged, if it
was so at the start. -/
theorem importLines_below_threshold (strHash : Str → Nat) (eol : Str) :
    ∀ (lines : List Str) (readHeader : Bool) (st st1 : Cache × DataStore),
      st.1.numCachedRecs < MAX_CACHED_RECS →
      importLines strHash eol readHeader lines st = .ok st1 →
      st1.1.numCachedRecs < MAX_CACHED_RECS := by
  intro lines
  induction lines with
  | nil =>
    intro rh st st1 hst h
    simp only [importLines, Except.ok.injEq] at h
    exact h ▸ hst
  | cons line rest ih =>
    intro rh st st1 hst h
    rw [importLines] at h
    split at h
    · split at h
      · simp only [Except.ok.injEq] at h
        exact h ▸ hst
      · exact ih true st st1 hst h
    · split at h
      · exact absurd h (by simp)
      · simp only [Except.ok.injEq] at h
        exact h ▸ hst
      · split at h
        · exact absurd h (by simp)
        · rename_i c1 hadd
          split at h
          · split at h
            · exact absurd h (by simp)
            · exact ih rh _ st1 (by simp [clearCache, MAX_CACHED_RECS]) h
          · rename_i hlt
            exact ih rh _ st1 (by simpa using hlt) h

/-- Staging records with pairwise-distinct logical keys, none of them held, that bring
`numCachedRecs` up to `MAX_CACHED_RECS` exactly with the last of them: no flush before the
last line, and after the last line the flush of the cache that holds them all, followed by
the rest of the loop on the cleared cache. -/
theorem importLines_fill (strHash : Str → Nat) (eol : Str) (rest : List Str) :
    ∀ (recs : List cacheRec) (lines : List Str) (keys : List cacheRec) (c : Cache)
      (ds : DataStore),
      (∀ x, Held c x → ∃ k ∈ keys, SameKey x k) →
      lines.map convertToRec = recs.map (fun r => .ok (some r)) →
      (∀ r ∈ recs, r.stb ≠ []) →
      recs.Pairwise (fun a b => ¬ SameKey a b) →
      (∀ r ∈ recs, ∀ k ∈ keys, ¬ SameKey k r) →
      recs ≠ [] →
      c.numCachedRecs + recs.length = MAX_CACHED_RECS →
      ∃ c1, addAllToCache strHash c recs = .ok c1 ∧
        c1.numCachedRecs = MAX_CACHED_RECS ∧
        importLines strHash eol true (lines ++ rest) (c, ds) =
          match addCacheToDataStore strHash eol c1 ds with
          | .error h => .error h
          | .ok ds1 => importLines strHash eol true rest (clearCache c1, ds1) := by
  intro recs
  induction recs with
  | nil => intro _ _ _ _ _ _ _ _ _ h; exact absurd rfl h
  | cons r rs ih =>
    intro lines keys c ds hc hparse hstb hpair hkeys _ hlen
    obtain ⟨l, ls, rfl⟩ : ∃ l ls, lines = l :: ls := by
      cases lines with
      | nil => simp at hparse
      | cons l ls => exact ⟨l, ls, rfl⟩
    simp only [List.map_cons, List.cons.injEq] at hparse
    obtain ⟨hl, hls⟩ := hparse
    have hfresh : ∀ x, Held c x → ¬ SameKey x r := by
      intro x hx hs
      obtain ⟨k, hk, hxk⟩ := hc x hx
      exact hkeys r (List.mem_cons_self _ _) k hk (hxk.symm.trans hs)
    obtain ⟨c1, hadd, hcount⟩ :=
      addToCache_count strHash c r (hstb r (List.mem_cons_self _ _)) hfresh
    have hround := importLines_round strHash eol (c, ds) l (ls ++ rest) r c1 hl hadd
    rw [List.pairwise_cons] at hpair
    rw [List.length_cons] at hlen
    cases rs with
    | nil =>
      have hls' : ls = [] := by simpa using hls
      subst hls'
      simp only [List.length_nil] at hlen
      refine ⟨c1, by simp [addAllToCache, hadd], by omega, ?_⟩
      rw [List.cons_append, hround, if_pos (by omega)]
      rfl
    | cons r2 rs2 =>
      obtain ⟨c2, hall, hfull, hloop⟩ := ih ls (r :: keys) c1 ds
        (addToCache_keys strHash keys c c1 r hadd hc) hls
        (fun x hx => hstb x (List.mem_cons_of_mem _ hx)) hpair.2
        (fun x hx k hk => by
          rw [List.mem_cons] at hk
          rcases hk with rfl | hk
          · exact hpair.1 x hx
          · exact hkeys x (List.mem_cons_of_mem _ hx) k hk)
        (by simp) (by simp only [List.length_cons] at hlen ⊢; omega)
      refine ⟨c2, by simp only [addAllToCache, hadd]; exact hall, hfull, ?_⟩
      rw [List.cons_append, hround, if_neg (by simp only [List.length_cons] at hlen; omega)]
      exact hloop

/-- C11. In the staging loop of `importDataFile`, started with fewer than `MAX_CACHED_RECS`
staged records: (1) a round that inserts a record brings `numCachedRecs` to at most
`MAX_CACHED_RECS`; the cache is flushed and cleared, and the loop goes on with the cleared
cache, exactly when `numCachedRecs` has reached `MAX_CACHED_RECS`, otherwise the loop goes
on with the datastore untouched; (2) when the loop returns, fewer than `MAX_CACHED_RECS`
records are staged; (3) from the empty cache, `MAX_CACHED_RECS` lines with pairwise-distinct
logical keys are staged without a flush until the last of them, which triggers the flush of
all of them and the clearing of the cache before the next line is staged. -/
theorem importLines_flush_at_threshold (strHash : Str → Nat) (eol : Str) :
    (∀ (st : Cache × DataStore) (line : Str) (rest : List Str) (rec : cacheRec) (c1 : Cache),
      st.1.numCachedRecs < MAX_CACHED_RECS →
      convertToRec line = .ok (some rec) →
      addToCache strHash st.1 rec = .ok c1 →
      c1.numCachedRecs ≤ MAX_CACHED_RECS ∧
      (c1.numCachedRecs = MAX_CACHED_RECS →
        importLines strHash eol true (line :: rest) st =
          match addCacheToDataStore strHash eol c1 st.2 with
          | .error h => .error h
          | .ok ds1 => importLines strHash eol true rest (clearCache c1, ds1)) ∧
      (c1.numCachedRecs ≠ MAX_CACHED_RECS →
        importLines strHash eol true (line :: rest) st =
          importLines strHash eol true rest (c1, st.2)) ∧
      (clearCache c1).numCachedRecs = 0 ∧ (∀ i, (clearCache c1).importCache i = [])) ∧
    (∀ (lines : List Str) (readHeader : Bool) (st st1 : Cache × DataStore),
      st.1.numCachedRecs < MAX_CACHED_RECS →
      importLines strHash eol readHeader lines st = .ok st1 →
      st1.1.numCachedRecs < MAX_CACHED_RECS) ∧
    (∀ (recs : List cacheRec) (lines rest : List Str) (ds : DataStore),
      lines.map convertToRec = recs.map (fun r => .ok (some r)) →
      (∀ r ∈ recs, r.stb ≠ []) →
      recs.Pairwise (fun a b => ¬ SameKey a b) →
      recs.length = MAX_CACHED_RECS →
      ∃ c, addAllToCache strHash emptyCache recs = .ok c ∧
        c.numCachedRecs = MAX_CACHED_RECS ∧
        importLines strHash eol true (lines ++ rest) (emptyCache, ds) =
          match addCacheToDataStore strHash eol c ds with
          | .error h => .error h
          | .ok ds1 => importLines strHash eol true rest (clearCache c, ds1)) := by
  refine ⟨?_, importLines_below_threshold strHash eol, ?_⟩
  · intro st line rest rec c1 hst hconv hadd
    have hstep := addToCache_step strHash st.1 c1 rec hadd
    have hround := importLines_round strHash eol st line rest rec c1 hconv hadd
    refine ⟨by omega, ?_, ?_, rfl, fun _ => rfl⟩
    · intro hfull
      rw [hround, if_pos (by omega)]
    · intro hne
      rw [hround, if_neg (by omega)]
  · intro recs lines rest ds hparse hstb hpair hlen
    exact importLines_fill strHash eol rest recs lines [] emptyCache ds
      (fun x hx => absurd hx (not_held_emptyCache x)) hparse hstb hpair
      (fun _ _ k hk => absurd hk (List.not_mem_nil k))
      (by rintro rfl; simp [MAX_CACHED_RECS] at hlen)
      (by simp only [emptyCache]; omega)

/-- Witness for C11: the ten lines `a|t|p|d`, `aa|t|p|d`, ... staged from the empty cache,
followed by an eleventh line. -/
theorem importLines_flush_at_threshold_witness :
    (keyLines 10).map convertToRec = (keyRecs 10).map (fun r => .ok (some r)) ∧
    (∀ r ∈ keyRecs 10, r.stb ≠ []) ∧
    (keyRecs 10).Pairwise (fun a b => ¬ SameKey a b) ∧
    (keyRecs 10).length = MAX_CACHED_RECS ∧
    ∃ c, addAllToCache lengthHash emptyCache (keyRecs 10) = .ok c ∧
      c.numCachedRecs = MAX_CACHED_RECS ∧
      importLines lengthHash crlf true (keyLines 10 ++ [(keyRec 10).rawData])
          (emptyCache, emptyStore) =
        match addCacheToDataStore lengthHash crlf c emptyStore with
        | .error h => .error h
        | .ok ds1 =>
          importLines lengthHash crlf true [(keyRec 10).rawData] (clearCache c, ds1) :=
  ⟨by decide, by decide, by decide, by decide,
    (importLines_flush_at_threshold lengthHash crlf).2.2 (keyRecs 10) (keyLines 10)
      [(keyRec 10).rawData] emptyStore (by decide) (by decide) (by decide) (by decide)⟩

/-! ## C16: the files a flush touches -/

/-- `storeCacheEntry` reads and writes one file only, the file of the index that `getHash`
gives for the `stb` of the head of the cache line: on two datastores that agree on this
file it ends the same way or replaces the file by the same bytes. -/
theorem storeCacheEntry_one_file (strHash : Str → Nat) (eol : Str) (c : Cache)
    (ds ds2 : DataStore) (p : cacheNode) (next : List cacheNode) (i : Fin HASH_SIZE)
    (hidx : getHash strHash p.own.stb = .ok i) (hfile : ds2 i = ds i) :
    (∃ h, storeCacheEntry strHash eol c ds (p :: next) = .error h ∧
      storeCacheEntry strHash eol c ds2 (p :: next) = .error h) ∨
    (∃ v, storeCacheEntry strHash eol c ds (p :: next) = .ok (Function.update ds i v) ∧
      storeCacheEntry strHash eol c ds2 (p :: next) = .ok (Function.update ds2 i v)) := by
  simp only [storeCacheEntry, hidx, hfile]
  cases ds i with
  | none => exact Or.inl ⟨_, rfl, rfl⟩
  | some data =>
    simp only
    cases scanDataStore strHash eol c (data.length + 1) ⟨data, 0, false⟩ with
    | error h => exact Or.inl ⟨_, rfl, rfl⟩
    | ok s => exact Or.inr ⟨_, rfl, rfl⟩

/-- The flush loop over a list of indices, in a state reached by insertions: files of empty
cache lines are not written, and the outcome on the files of non-empty cache lines does not
depend on the other files. -/
theorem addCacheLinesToDataStore_frame (strHash : Str → Nat) (eol : Str) (c : Cache)
    (hc : Reachable strHash c) :
    ∀ (is : List (Fin HASH_SIZE)) (ds ds2 : DataStore),
      (∀ i, c.importCache i ≠ [] → ds2 i = ds i) →
      (∀ ds1, addCacheLinesToDataStore strHash eol c is ds = .ok ds1 →
        ∀ i, c.importCache i = [] → ds1 i = ds i) ∧
      (∀ i, c.importCache i ≠ [] →
        fileAfter (addCacheLinesToDataStore strHash eol c is ds2) i =
          fileAfter (addCacheLinesToDataStore strHash eol c is ds) i) := by
  intro is
  induction is with
  | nil =>
    intro ds ds2 hagree
    refine ⟨fun ds1 h i _ => ?_, fun i hi => ?_⟩
    · simp only [addCacheLinesToDataStore, Except.ok.injEq] at h
      rw [h]
    · simp only [addCacheLinesToDataStore, fileAfter, hagree i hi]
  | cons i0 rest ih =>
    intro ds ds2 hagree
    cases hline : c.importCache i0 with
    | nil =>
      simp only [addCacheLinesToDataStore, hline]
      exact ih ds ds2 hagree
    | cons p next =>
      have hidx : getHash strHash p.own.stb = .ok i0 :=
        (hc.line_hash i0 p (hline ▸ List.mem_cons_self _ _) p.own
          (List.mem_cons_self _ _)).1
      have hne : c.importCache i0 ≠ [] := by simp [hline]
      simp only [addCacheLinesToDataStore, hline]
      rcases storeCacheEntry_one_file strHash eol c ds ds2 p next i0 hidx (hagree i0 hne)
        with ⟨h, h1, h2⟩ | ⟨v, h1, h2⟩
      · rw [h1, h2]
        exact ⟨fun ds1 h => absurd h (by simp), fun i _ => rfl⟩
      · rw [h1, h2]
        have hagree2 : ∀ i, c.importCache i ≠ [] →
            Function.update ds2 i0 v i = Function.update ds i0 v i := by
          intro i hi
          by_cases hii : i = i0
          · subst hii; simp
          · simp [Function.update_noteq hii, hagree i hi]
        obtain ⟨ih1, ih2⟩ := ih (Function.update ds i0 v) (Function.update ds2 i0 v) hagree2
        refine ⟨fun ds1 h i hi => ?_, ih2⟩
        rw [ih1 ds1 h i hi, Function.update_noteq]
        rintro rfl
        exact hne hi

/-- C16. In a state reached from the empty cache by insertions, the head of a non-empty
cache line `i` has `getHash(stb) = i`, so the flush of the line works on file `i`; a flush
that returns leaves the file of every empty cache line as it was; and how the flush ends
and what it leaves in the files of the non-empty cache lines does not depend on the files
of the empty ones (they are not read). -/
theorem addCacheToDataStore_frame (strHash : Str → Nat) (eol : Str) (c : Cache)
    (ds : DataStore) (hc : Reachable strHash c) :
    (∀ i p next, c.importCache i = p :: next → getHash strHash p.own.stb = .ok i) ∧
    (∀ ds1, addCacheToDataStore strHash eol c ds = .ok ds1 →
      ∀ i, c.importCache i = [] → ds1 i = ds i) ∧
    (∀ ds2 : DataStore, (∀ i, c.importCache i ≠ [] → ds2 i = ds i) →
      ∀ i, c.importCache i ≠ [] →
        fileAfter (addCacheToDataStore strHash eol c ds2) i =
          fileAfter (addCacheToDataStore strHash eol c ds) i) := by
  refine ⟨fun i p next hline =>
    (hc.line_hash i p (hline ▸ List.mem_cons_self _ _) p.own (List.mem_cons_self _ _)).1,
    (addCacheLinesToDataStore_frame strHash eol c hc _ ds ds (fun _ _ => rfl)).1,
    fun ds2 hagree =>
      (addCacheLinesToDataStore_frame strHash eol c hc _ ds ds2 hagree).2⟩

/-- Witness for C16: the cache that holds the `1:45` record, flushed against a datastore
whose file 4 holds the `1:30` line. -/
theorem addCacheToDataStore_frame_witness :
    Reachable lengthHash (oneKeyCache lengthHash matrix145) ∧
    (∀ i p next, (oneKeyCache lengthHash matrix145).importCache i = p :: next →
      getHash lengthHash p.own.stb = .ok i) ∧
    (∀ ds1, addCacheToDataStore lengthHash crlf (oneKeyCache lengthHash matrix145)
        (storeWith crlf (lineIndex lengthHash matrix145.stb) [live130]) = .ok ds1 →
      ∀ i, (oneKeyCache lengthHash matrix145).importCache i = [] →
        ds1 i = storeWith crlf (lineIndex lengthHash matrix145.stb) [live130] i) ∧
    (∀ ds2 : DataStore,
      (∀ i, (oneKeyCache lengthHash matrix145).importCache i ≠ [] →
        ds2 i = storeWith crlf (lineIndex lengthHash matrix145.stb) [live130] i) →
      ∀ i, (oneKeyCache lengthHash matrix145).importCache i ≠ [] →
        fileAfter (addCacheToDataStore lengthHash crlf (oneKeyCache lengthHash matrix145)
          ds2) i =
        fileAfter (addCacheToDataStore lengthHash crlf (oneKeyCache lengthHash matrix145)
          (storeWith crlf (lineIndex lengthHash matrix145.stb) [live130])) i) :=
  have hreach : Reachable lengthHash (oneKeyCache lengthHash matrix145) :=
    Reachable.add matrix145 Reachable.empty
      (oneKeyCache_spec lengthHash matrix145 (by decide))
  ⟨hreach, addCacheToDataStore_frame lengthHash crlf _ _ hreach⟩

/-! ## C17: opening the datastore file -/

theorem findRecInCache_error (strHash : Str → Nat) (c : Cache) (rec : cacheRec) (h : Halt)
    (herr : findRecInCache strHash c rec = .error h) : h = .assertFailed := by
  unfold findRecInCache getHash at herr
  split at herr
  · rename_i h1 heq
    split at heq
    · simp only [Except.error.injEq] at heq herr
      rw [← herr, ← heq]
    · simp at heq
  · split at herr
    · simp at herr
    · split at herr <;> simp at herr

theorem convertToRec_error (input : Str) (h : Halt) (herr : convertToRec input = .error h) :
    h = .assertFailed ∨ h = .exit 0 := by
  unfold convertToRec at herr
  split at herr
  · simp only [Except.error.injEq] at herr
    exact Or.inl herr.symm
  · repeat' split at herr
    all_goals first
      | (simp only [Except.error.injEq] at herr; exact Or.inr herr.symm)
      | simp at herr

/-- The ways in which the lookup for a datastore line ends the run. -/
theorem checkCacheForRecord_error (strHash : Str → Nat) (c : Cache) (input : Str) (h : Halt)
    (herr : checkCacheForRecord strHash c input = .error h) :
    h = .assertFailed ∨ h = .exit 0 ∨ h = .undefinedBehaviour := by
  unfold checkCacheForRecord at herr
  split at herr
  · simp only [Except.error.injEq] at herr
    exact Or.inl herr.symm
  · split at herr
    · simp at herr
    · split at herr
      · simp only [Except.error.injEq] at herr
        exact Or.inr (Or.inr herr.symm)
      · split at herr
        · rename_i h1 heq
          simp only [Except.error.injEq] at herr
          subst herr
          rcases convertToRec_error _ _ heq with h2 | h2
          · exact Or.inl h2
          · exact Or.inr (Or.inl h2)
        · simp only [Except.error.injEq] at herr
          exact Or.inl herr.symm
        · exact Or.inl (findRecInCache_error strHash c _ h herr)

/-- The scan loop never ends the run with `exit(1)`. -/
theorem scanDataStore_ne_exit_one (strHash : Str → Nat) (eol : Str) (c : Cache) :
    ∀ (fuel : Nat) (s : fstream), scanDataStore strHash eol c fuel s ≠ .error (.exit 1) := by
  intro fuel
  induction fuel with
  | zero => intro s; simp [scanDataStore]
  | succ fuel ih =>
    intro s
    unfold scanDataStore
    split
    · simp
    · split
      · rename_i h heq
        intro hc
        simp only [Except.error.injEq] at hc
        subst hc
        rcases checkCacheForRecord_error strHash c _ _ heq with h1 | h1 | h1 <;> simp at h1
      · exact ih _
      · exact ih _

/-- The open of `storeCacheEntry`, for a cache line whose head has a non-empty `stb`:
a file that cannot be opened for reading and writing ends the run with `exit(1)`, nothing
else does, and on an existing empty file the merge completes with the lines of the records
of the cache line. -/
theorem storeCacheEntry_open_cases (strHash : Str → Nat) (eol : Str) (c : Cache)
    (ds : DataStore) (p : cacheNode) (next : List cacheNode) (i : Fin HASH_SIZE)
    (hidx : getHash strHash p.own.stb = .ok i) :
    (ds i = none → storeCacheEntry strHash eol c ds (p :: next) = .error (.exit 1)) ∧
    (storeCacheEntry strHash eol c ds (p :: next) = .error (.exit 1) → ds i = none) ∧
    (ds i = some [] → storeCacheEntry strHash eol c ds (p :: next) =
      .ok (Function.update ds i
        (some (fileOfLines eol ((lineRecs (p :: next)).map dsText))))) := by
  refine ⟨fun h => by simp [storeCacheEntry, hidx, h], fun h => ?_, fun h => ?_⟩
  · simp only [storeCacheEntry, hidx] at h
    split at h
    · assumption
    · split at h
      · rename_i h1 heq
        simp only [Except.error.injEq] at h
        subst h
        exact absurd heq (scanDataStore_ne_exit_one strHash eol c _ _)
      · simp at h
  · simp [storeCacheEntry, hidx, h, scanDataStore, fstream.getline, appendedBytes_eq]

/-- C17 as amended. For a non-empty cache line (head with non-empty `stb`) whose datastore
file cannot be opened for reading and writing - a file that does not exist cannot, the open
does not create it - `storeCacheEntry` ends the run with `exit(1)`; it ends with `exit(1)`
in no other case; and when the file exists and is empty the merge completes and the file
then holds exactly the records of the cache line as `1|<rawData>` lines. -/
theorem storeCacheEntry_missing_file (strHash : Str → Nat) (eol : Str) (c : Cache)
    (ds : DataStore) (p : cacheNode) (next : List cacheNode) (i : Fin HASH_SIZE)
    (hidx : getHash strHash p.own.stb = .ok i) :
    (ds i = none → storeCacheEntry strHash eol c ds (p :: next) = .error (.exit 1)) ∧
    (storeCacheEntry strHash eol c ds (p :: next) = .error (.exit 1) → ds i = none) ∧
    (ds i = some [] → storeCacheEntry strHash eol c ds (p :: next) =
      .ok (Function.update ds i
        (some (fileOfLines eol ((lineRecs (p :: next)).map dsText))))) :=
  storeCacheEntry_open_cases strHash eol c ds p next i hidx

/-- Witness for C17 as amended: the `1:30` record and a datastore of existing empty
files. -/
theorem storeCacheEntry_missing_file_witness :
    getHash lengthHash matrix130.stb = .ok (lineIndex lengthHash matrix130.stb) ∧
    emptyStore (lineIndex lengthHash matrix130.stb) = some [] ∧
    storeCacheEntry lengthHash crlf (oneKeyCache lengthHash matrix130) emptyStore
        [⟨matrix130, []⟩] =
      .ok (Function.update emptyStore (lineIndex lengthHash matrix130.stb)
        (some (fileOfLines crlf ((lineRecs [⟨matrix130, []⟩]).map dsText)))) ∧
    (lineRecs [⟨matrix130, []⟩]).map dsText = [live130] :=
  ⟨by decide, rfl,
    (storeCacheEntry_missing_file lengthHash crlf (oneKeyCache lengthHash matrix130)
      emptyStore ⟨matrix130, []⟩ [] (lineIndex lengthHash matrix130.stb)
      (by decide)).2.2 rfl,
    by decide⟩

/-- C17 (fails on the code as stated). With the `1:30` record staged and no datastore file
in place, `storeCacheEntry` ends the run with `exit(1)` (for either line terminator): the
file is not created and nothing is merged. -/
theorem storeCacheEntry_no_file_exits :
    storeCacheEntry lengthHash crlf (oneKeyCache lengthHash matrix130) noStore
        [⟨matrix130, []⟩] = .error (.exit 1) ∧
    storeCacheEntry lengthHash lf (oneKeyCache lengthHash matrix130) noStore
        [⟨matrix130, []⟩] = .error (.exit 1) ∧
    addCacheToDataStore lengthHash crlf (oneKeyCache lengthHash matrix130) noStore =
      .error (.exit 1) :=
  ⟨rfl, rfl, rfl⟩

/-! ## C18: the key passed to `getHash` -/

/-- In a state reached by insertions every held record has a non-empty `stb`. -/
theorem Reachable.held_stb_ne_nil {strHash : Str → Nat} {c : Cache}
    (hc : Reachable strHash c) (x : cacheRec) (hx : Held c x) : x.stb ≠ [] := by
  obtain ⟨i, node, hnode, hmem⟩ := hx
  exact (getHash_eq_ok strHash (hc.line_hash i node hnode x hmem).1).1

/-- The `stb` of a record that `convertToRec` returns is empty exactly when the line starts
with `|`. -/
theorem convertToRec_stb_empty (input : Str) (r : cacheRec)
    (h : convertToRec input = .ok (some r)) : r.stb = [] ↔ input.head? = some '|' := by
  unfold convertToRec at h
  split at h
  · simp at h
  · cases input with
    | nil => simp [getlineDelim] at h
    | cons ch cs =>
      have hstb : r.stb = (readUntil '|' (ch :: cs)).1 := by
        simp only [getlineDelim] at h
        repeat' split at h
        all_goals first
          | (simp only [Except.ok.injEq, Option.some.injEq] at h
             rw [← h])
          | simp at h
      rw [hstb]
      by_cases hc : ch = '|'
      · simp [readUntil, hc]
      · simp [readUntil, hc]

/-- C18 (fails on the code). `convertToRec` accepts the import line
`|The Matrix|WB|2014-04-01|4.00|1:30` and returns a record with an empty `stb`; `addToCache`
on that record, and with it the staging loop, `importDataFile` and `importDataAll` on a file
that holds the line, end in the failed assertion `!str.empty()` of `getHash`. -/
theorem getHash_assert_fails_on_import :
    convertToRec "|The Matrix|WB|2014-04-01|4.00|1:30".toList =
      .ok (some ⟨[], "The Matrix".toList, "2014-04-01".toList,
        "|The Matrix|WB|2014-04-01|4.00|1:30".toList⟩) ∧
    (∀ strHash, getHash strHash [] = .error .assertFailed) ∧
    (∀ (strHash : Str → Nat) (c : Cache),
      addToCache strHash c ⟨[], "The Matrix".toList, "2014-04-01".toList,
        "|The Matrix|WB|2014-04-01|4.00|1:30".toList⟩ = .error .assertFailed) ∧
    importDataFile lengthHash crlf noKeyFiles "C.txt".toList (emptyCache, emptyStore) =
      .error .assertFailed ∧
    importDataAll lengthHash crlf noKeyFiles "list".toList (emptyCache, emptyStore) =
      .error .assertFailed :=
  ⟨by decide, fun _ => rfl, fun _ _ => rfl, rfl, rfl⟩

/-! ## C19: the seek offsets -/

theorem put_pos (s : fstream) (ch : Char) (hs : s.fail = false) :
    (s.put ch).pos = s.pos + 1 ∧ (s.put ch).fail = false := by
  unfold fstream.put
  simp only [hs, Bool.false_eq_true, if_false]
  split <;> exact ⟨rfl, rfl⟩

/-- The positions around the write of the scan loop, for a line of `len` bytes that starts
at offset `start` and a terminator of `width` bytes: the backward seek lands `2 - width`
bytes before the first byte of the line, and the forward seek returns to the read
position. -/
theorem seek_positions (data : Str) (start len width : Nat) (hlen : len + 2 ≤ 2 ^ 31)
    (hstart : 2 ≤ start + width) :
    (⟨data, start + len + width, false⟩ : fstream).seekgCur (rewindOf len) =
      ⟨data, start + width - 2, false⟩ ∧
    ((((⟨data, start + len + width, false⟩ : fstream).seekgCur (rewindOf len)).put
      '0').seekgCur (forwardOf len)).pos = start + len + width ∧
    ((((⟨data, start + len + width, false⟩ : fstream).seekgCur (rewindOf len)).put
      '0').seekgCur (forwardOf len)).fail = false := by
  have hr : rewindOf len = -(len : Int) - 2 := toInt32_of_range _ (by omega) (by omega)
  have hf : forwardOf len = (len : Int) + 1 := toInt32_of_range _ (by omega) (by omega)
  have h1 := seekgCur_to data (start + len + width) (start + width - 2) (rewindOf len)
    (by rw [hr]; push_cast; omega)
  rw [h1]
  obtain ⟨hp, hfail⟩ := put_pos ⟨data, start + width - 2, false⟩ '0' rfl
  generalize (⟨data, start + width - 2, false⟩ : fstream).put '0' = s2 at hp hfail
  obtain ⟨d2, p2, f2⟩ := s2
  simp only at hp hfail
  subst hp hfail
  rw [seekgCur_to d2 _ (start + len + width) (forwardOf len) (by rw [hf]; push_cast; omega)]
  exact ⟨rfl, rfl, rfl⟩

/-- C19 as amended. For a line of `L < 2 ^ 31 - 2` bytes just read, the backward seek by
`-L - 2` from the read position behind the terminator lands exactly on the first byte of the
line (the validity flag) when the terminator takes two bytes; when it takes one byte the
seek lands one byte before the flag byte (on the terminator of the line before). In both
cases, when the backward seek stays inside the file, the position after the one-byte write
and the forward seek by `L + 1` is the read position again, the start of the next line. -/
theorem seek_lands_on_flag (data : Str) (start len width : Nat) (hlen : len + 2 ≤ 2 ^ 31)
    (hstart : 2 ≤ start + width) :
    (width = 2 →
      ((⟨data, start + len + width, false⟩ : fstream).seekgCur (rewindOf len)).pos = start) ∧
    (width = 1 →
      ((⟨data, start + len + width, false⟩ : fstream).seekgCur (rewindOf len)).pos + 1 =
        start) ∧
    ((⟨data, start + len + width, false⟩ : fstream).seekgCur (rewindOf len)).fail = false ∧
    ((((⟨data, start + len + width, false⟩ : fstream).seekgCur (rewindOf len)).put
      '0').seekgCur (forwardOf len)).pos = start + len + width ∧
    ((((⟨data, start + len + width, false⟩ : fstream).seekgCur (rewindOf len)).put
      '0').seekgCur (forwardOf len)).fail = false := by
  obtain ⟨h1, h2, h3⟩ := seek_positions data start len width hlen hstart
  rw [h1] at *
  refine ⟨fun hw => ?_, fun hw => ?_, rfl, h2, h3⟩
  · subst hw; simp
  · subst hw; simp only; omega

/-- Witness for C19 as amended: the file of scenario B with a two-byte terminator, the
`1:30` line (41 bytes, at offset 0) just read. -/
theorem seek_lands_on_flag_witness :
    live130.length + 2 ≤ 2 ^ 31 ∧ 2 ≤ 0 + 2 ∧
    ((⟨fileOfLines crlf [live130], 0 + live130.length + 2, false⟩ : fstream).seekgCur
      (rewindOf live130.length)).pos = 0 ∧
    ((((⟨fileOfLines crlf [live130], 0 + live130.length + 2, false⟩ : fstream).seekgCur
      (rewindOf live130.length)).put '0').seekgCur (forwardOf live130.length)).pos =
      0 + live130.length + 2 :=
  ⟨by decide, by decide,
    (seek_lands_on_flag (fileOfLines crlf [live130]) 0 live130.length 2 (by decide)
      (by decide)).1 rfl,
    (seek_lands_on_flag (fileOfLines crlf [live130]) 0 live130.length 2 (by decide)
      (by decide)).2.2.2.1⟩

/-- C19 (fails on the code as stated). With a single-byte terminator: for the `1:30` line
read as the second line of a file (it starts at offset 43, the read position behind its
terminator is 85) the backward seek lands on offset 42, the terminator of the first line,
not on the flag byte at offset 43; and for the `1:30` line read as the first line of a file
the backward seek would land before the start of the file and fails. -/
theorem seek_misses_flag_single_byte :
    live205.length + 1 = 43 ∧ live130.length = 41 ∧
    ((⟨fileOfLines lf [live205, live130], 43 + 41 + 1, false⟩ : fstream).seekgCur
      (rewindOf 41)) = ⟨fileOfLines lf [live205, live130], 42, false⟩ ∧
    (fileOfLines lf [live205, live130]).get? 42 = some '\n' ∧
    (fileOfLines lf [live205, live130]).get? 43 = some '1' ∧
    ((⟨fileOfLines lf [live130], 0 + 41 + 1, false⟩ : fstream).seekgCur
      (rewindOf 41)).fail = true := by
  decide

/-! ## C20: live lines after a flush -/

/-- The cache after inserting the `1:30` record and then the `1:45` record. -/
theorem addAllToCache_matrix_twice (strHash : Str → Nat) :
    addAllToCache strHash emptyCache [matrix130, matrix145] =
      .ok ⟨Function.update (fun _ => []) (lineIndex strHash matrix130.stb)
        [⟨matrix130, [matrix145]⟩], 2⟩ := by
  simp [addAllToCache, addToCache, getHash, matrix130, matrix145, emptyCache,
    addToCacheSameKey, lineIndex]

/-- C20 (fails on the code). For every hash function and every line terminator: insert the
`1:30` record and the `1:45` record (one logical key) into the empty cache and flush the
cache line against an existing empty file, in which no key has a live line. Afterwards the
file holds the two live lines `1|...|1:30` and `1|...|1:45` for the one logical key. -/
theorem storeCacheEntry_two_live_lines (strHash : Str → Nat) (eol : Str) :
    ∃ c, addAllToCache strHash emptyCache [matrix130, matrix145] = .ok c ∧
      Reachable strHash c ∧
      emptyStore (lineIndex strHash matrix130.stb) = some (fileOfLines eol []) ∧
      UniqueLive [] ∧
      storeCacheEntry strHash eol c emptyStore
          (c.importCache (lineIndex strHash matrix130.stb)) =
        .ok (Function.update emptyStore (lineIndex strHash matrix130.stb)
          (some (fileOfLines eol [live130, live145]))) ∧
      ¬ UniqueLive [live130, live145] := by
  have hadd := addAllToCache_matrix_twice strHash
  refine ⟨_, hadd, Reachable.addAll _ Reachable.empty hadd, rfl, by decide, ?_, by decide⟩
  have hline : (Function.update (fun _ => ([] : List cacheNode))
      (lineIndex strHash matrix130.stb) [⟨matrix130, [matrix145]⟩])
      (lineIndex strHash matrix130.stb) = [⟨matrix130, [matrix145]⟩] := by simp
  simp only [hline]
  rw [(storeCacheEntry_open_cases strHash eol _ emptyStore ⟨matrix130, [matrix145]⟩ []
    (lineIndex strHash matrix130.stb) (getHash_ok strHash (by decide))).2.2 rfl]
  rfl

/-! ## C12: tombstoned lines and a repeated merge -/

/-- A line whose first byte is `0` is not looked up: `checkCacheForRecord` returns false
before it parses anything. -/
theorem checkCacheForRecord_dead (strHash : Str → Nat) (c : Cache) (rest : Str) :
    checkCacheForRecord strHash c ('0' :: rest) = .ok false := by
  simp [checkCacheForRecord]

theorem tombstone_dead (strHash : Str → Nat) (c : Cache) (rest : Str) :
    tombstone strHash c ('0' :: rest) = '0' :: rest := by
  simp [tombstone, checkCacheForRecord_dead]

theorem tombstone_idem (strHash : Str → Nat) (c : Cache) (l : Str) :
    tombstone strHash c (tombstone strHash c l) = tombstone strHash c l := by
  by_cases h : checkCacheForRecord strHash c l = .ok true
  · have ht : tombstone strHash c l = '0' :: l.tail := by simp [tombstone, h]
    rw [ht, tombstone_dead]
  · have ht : tombstone strHash c l = l := by
      unfold tombstone
      split
      · rename_i heq
        exact absurd heq h
      · rfl
    rw [ht, ht]

theorem StoreLine.tombstone {eol l : Str} (strHash : Str → Nat) (c : Cache)
    (hzero : '0' ∉ eol) (hl : StoreLine eol l) : StoreLine eol (tombstone strHash c l) := by
  rcases tombstone_cases strHash c eol l hl with h | ⟨rest, hone, h⟩
  · rw [h]; exact hl
  · rw [h]
    subst hone
    refine ⟨fun ch hch => ?_, ?_, Or.inl rfl⟩
    · rw [List.mem_cons] at hch
      rcases hch with rfl | hch
      · exact hzero
      · exact hl.1 ch (List.mem_cons_of_mem _ hch)
    · have := hl.2.1
      simpa using this

/-- Two merges of a cache line in a row with the same cache contents, for a two-byte
terminator and lines of the datastore format: the second merge leaves the lines that were
in the file before the first merge as the first merge left them and can only flip lines
that the first merge appended. -/
theorem storeCacheEntry_twice (strHash : Str → Nat) (eol : Str) (c : Cache) (ds : DataStore)
    (p : cacheNode) (next : List cacheNode) (lines : List Str) (i : Fin HASH_SIZE)
    (heol : eol.length = 2) (hzero : '0' ∉ eol)
    (hidx : getHash strHash p.own.stb = .ok i)
    (hfile : ds i = some (fileOfLines eol lines))
    (hlines : ∀ l ∈ lines, StoreLine eol l)
    (hrecs : ∀ r ∈ lineRecs (p :: next), StoreLine eol (dsText r)) :
    ∃ ds1 ds2,
      storeCacheEntry strHash eol c ds (p :: next) = .ok ds1 ∧
      storeCacheEntry strHash eol c ds1 (p :: next) = .ok ds2 ∧
      ds1 i = some (fileOfLines eol
        (lines.map (tombstone strHash c) ++ (lineRecs (p :: next)).map dsText)) ∧
      ds2 i = some (fileOfLines eol
        (lines.map (tombstone strHash c) ++
          ((lineRecs (p :: next)).map dsText).map (tombstone strHash c) ++
          (lineRecs (p :: next)).map dsText)) := by
  have h1 := storeCacheEntry_lines strHash eol c ds p next lines i heol hidx hfile hlines
  have hlines1 : ∀ l ∈ lines.map (tombstone strHash c) ++ (lineRecs (p :: next)).map dsText,
      StoreLine eol l := by
    intro l hl
    rw [List.mem_append, List.mem_map, List.mem_map] at hl
    rcases hl with ⟨l0, hl0, rfl⟩ | ⟨r, hr, rfl⟩
    · exact (hlines l0 hl0).tombstone strHash c hzero
    · exact hrecs r hr
  have h2 := storeCacheEntry_lines strHash eol c _ p next _ i heol hidx
    (Function.update_same i _ ds) hlines1
  refine ⟨_, _, h1, h2, Function.update_same i _ ds, ?_⟩
  rw [Function.update_same, List.map_append, List.map_map]
  have hid : tombstone strHash c ∘ tombstone strHash c = tombstone strHash c :=
    funext (tombstone_idem strHash c)
  rw [hid]

/-- C12 as amended. `checkCacheForRecord` returns false for every line that starts with `0`,
without a lookup, and such a line is left as it is. With a two-byte line terminator, lines
of the datastore format in the file and records whose lines are of that format, the merge of
a cache line run twice in a row with the same cache contents returns both times; the second
run leaves every line that was in the file before the first run as the first run left it
(so no line is flipped twice and no tombstoned line changes) and flips only lines that the
first run appended. -/
theorem storeCacheEntry_tombstone_once (strHash : Str → Nat) (eol : Str) (c : Cache)
    (ds : DataStore) (p : cacheNode) (next : List cacheNode) (lines : List Str)
    (i : Fin HASH_SIZE)
    (heol : eol.length = 2) (hzero : '0' ∉ eol)
    (hidx : getHash strHash p.own.stb = .ok i)
    (hfile : ds i = some (fileOfLines eol lines))
    (hlines : ∀ l ∈ lines, StoreLine eol l)
    (hrecs : ∀ r ∈ lineRecs (p :: next), StoreLine eol (dsText r)) :
    (∀ rest, checkCacheForRecord strHash c ('0' :: rest) = .ok false) ∧
    (∀ rest, tombstone strHash c ('0' :: rest) = '0' :: rest) ∧
    (∀ l, tombstone strHash c (tombstone strHash c l) = tombstone strHash c l) ∧
    ∃ ds1 ds2,
      storeCacheEntry strHash eol c ds (p :: next) = .ok ds1 ∧
      storeCacheEntry strHash eol c ds1 (p :: next) = .ok ds2 ∧
      ds1 i = some (fileOfLines eol
        (lines.map (tombstone strHash c) ++ (lineRecs (p :: next)).map dsText)) ∧
      ds2 i = some (fileOfLines eol
        (lines.map (tombstone strHash c) ++
          ((lineRecs (p :: next)).map dsText).map (tombstone strHash c) ++
          (lineRecs (p :: next)).map dsText)) :=
  ⟨checkCacheForRecord_dead strHash c, tombstone_dead strHash c, tombstone_idem strHash c,
    storeCacheEntry_twice strHash eol c ds p next lines i heol hzero hidx hfile hlines hrecs⟩

/-- Witness for C12 as amended: the file holds the tombstoned and the live `1:30` line, the
cache the `1:45` record. The first merge flips the live `1:30` line and appends the `1:45`
line; the second flips the appended `1:45` line and appends it again. -/
theorem storeCacheEntry_tombstone_once_witness :
    crlf.length = 2 ∧ '0' ∉ crlf ∧
    getHash lengthHash matrix145.stb = .ok (lineIndex lengthHash matrix145.stb) ∧
    (∀ l ∈ [dead130, live130], StoreLine crlf l) ∧
    (∀ r ∈ lineRecs [⟨matrix145, []⟩], StoreLine crlf (dsText r)) ∧
    [dead130, live130].map (tombstone lengthHash (oneKeyCache lengthHash matrix145)) ++
        ((lineRecs [⟨matrix145, []⟩]).map dsText).map
          (tombstone lengthHash (oneKeyCache lengthHash matrix145)) ++
        (lineRecs [⟨matrix145, []⟩]).map dsText =
      [dead130, dead130, '0' :: live145.tail, live145] ∧
    ∃ ds1 ds2,
      storeCacheEntry lengthHash crlf (oneKeyCache lengthHash matrix145)
        (storeWith crlf (lineIndex lengthHash matrix145.stb) [dead130, live130])
        [⟨matrix145, []⟩] = .ok ds1 ∧
      storeCacheEntry lengthHash crlf (oneKeyCache lengthHash matrix145) ds1
        [⟨matrix145, []⟩] = .ok ds2 ∧
      ds1 (lineIndex lengthHash matrix145.stb) = some (fileOfLines crlf
        ([dead130, live130].map (tombstone lengthHash (oneKeyCache lengthHash matrix145)) ++
          (lineRecs [⟨matrix145, []⟩]).map dsText)) ∧
      ds2 (lineIndex lengthHash matrix145.stb) = some (fileOfLines crlf
        ([dead130, live130].map (tombstone lengthHash (oneKeyCache lengthHash matrix145)) ++
          ((lineRecs [⟨matrix145, []⟩]).map dsText).map
            (tombstone lengthHash (oneKeyCache lengthHash matrix145)) ++
          (lineRecs [⟨matrix145, []⟩]).map dsText)) :=
  ⟨by decide, by decide, by decide, by decide, by decide, by decide,
    (storeCacheEntry_tombstone_once lengthHash crlf (oneKeyCache lengthHash matrix145)
      (storeWith crlf (lineIndex lengthHash matrix145.stb) [dead130, live130])
      ⟨matrix145, []⟩ [] [dead130, live130] (lineIndex lengthHash matrix145.stb)
      (by decide) (by decide) (by decide) (by simp [storeWith]) (by decide)
      (by decide)).2.2.2⟩

/-- C12 (fails on the code as stated). With a one-byte line terminator, a file that holds
the tombstoned `1:30` line followed by the live `1:30` line, and the `1:45` record in the
cache: the backward seek for the live line lands on the terminator of the tombstoned line
and the write replaces it. Afterwards the first line of the file is no longer the
tombstoned line but that line, a `0` and the text of the live line; the file is not the
tombstoned line followed by the second line, flipped or not, and the new line. -/
theorem storeCacheEntry_dead_line_changed :
    fileAfter (storeCacheEntry lengthHash lf (oneKeyCache lengthHash matrix145)
        (storeWith lf (lineIndex lengthHash matrix145.stb) [dead130, live130])
        [⟨matrix145, []⟩]) (lineIndex lengthHash matrix145.stb) =
      .ok (some (fileOfLines lf [dead130 ++ '0' :: live130, live145])) ∧
    (readLine lf (fileOfLines lf [dead130 ++ '0' :: live130, live145])).1 ≠ dead130 ∧
    (∀ y ∈ [live130, dead130],
      fileOfLines lf [dead130 ++ '0' :: live130, live145] ≠
        fileOfLines lf [dead130, y, live145]) := by
  refine ⟨by decide, by decide, by decide⟩

end Importer
